import Mathlib

/-!
# Verification of the rust_graph repository

Shallow embedding of the rust_graph library: the directed-graph storage
backends (`AdjListGraph`, `IncMatrixGraph`, and the older `AdjMatrixGraph`),
the identifier registry (`DoubleMapping`), and the two path-finding
algorithms (`Dfs` and `Dijkstra`).  Node objects are modelled by `Nat`;
Rust `u32`/`usize` values are modelled by `Nat` with explicit overflow
handling where it matters; Rust panics are modelled by `Option`-valued
results (`none` = panic); lazy iterators are modelled by lists in a fixed
deterministic order (hash iteration order is unspecified in the source, so
any fixed order is a legitimate refinement).
-/

/-- `u32::MAX`, the "infinite" distance sentinel used by Dijkstra. -/
def u32Max : Nat := 4294967295

/-!
## Abstract graph model

Both algorithms consume a graph purely through the `Graph` trait operations
`has_node` (membership of `nodes`), `iter_nodes` (the list `nodes`) and
`iter_adj` (the function `adj`).  `adjL` is an association list so that
well-formedness is decidable; `adj v` is the neighbor list of `v`.
-/

/-- First-match lookup in an association list (the model of `HashMap::get`;
the maps in the source have distinct keys, under which first-match agrees
with hash lookup). -/
def assocFind {β : Type} (k : Nat) : List (Nat × β) → Option β
  | [] => none
  | p :: ps => if p.1 = k then some p.2 else assocFind k ps

theorem assocFind_mem {β : Type} {k : Nat} {l : List (Nat × β)} {v : β}
    (h : assocFind k l = some v) : (k, v) ∈ l := by
  induction l with
  | nil => simp [assocFind] at h
  | cons p ps ih =>
    obtain ⟨a, b⟩ := p
    by_cases hp : a = k
    · subst hp
      simp [assocFind] at h
      subst h
      exact List.mem_cons_self _ _
    · simp [assocFind, hp] at h
      exact List.mem_cons_of_mem _ (ih h)

structure GraphModel where
  nodes : List Nat
  adjL : List (Nat × List Nat)
deriving Repr, DecidableEq

def GraphModel.adj (g : GraphModel) (v : Nat) : List Nat :=
  match assocFind v g.adjL with
  | some l => l
  | none => []

/-- Well-formedness of the abstract graph: distinct registered nodes, and
every adjacency entry is keyed by a registered node with registered
neighbors.  These facts hold for every state reachable through the Graph
contract of each backend. -/
def GraphModel.WF (g : GraphModel) : Prop :=
  g.nodes.Nodup ∧ ∀ p ∈ g.adjL, p.1 ∈ g.nodes ∧ ∀ w ∈ p.2, w ∈ g.nodes

instance (g : GraphModel) : Decidable g.WF := by
  unfold GraphModel.WF; infer_instance

theorem GraphModel.adj_subset (g : GraphModel) (hwf : g.WF) (v : Nat) :
    ∀ w ∈ g.adj v, w ∈ g.nodes := by
  intro w hw
  unfold GraphModel.adj at hw
  cases h : assocFind v g.adjL with
  | none => rw [h] at hw; simp at hw
  | some l =>
    rw [h] at hw
    exact (hwf.2 _ (assocFind_mem h)).2 w hw

theorem GraphModel.adj_nil_of_not_mem (g : GraphModel) (hwf : g.WF) (v : Nat)
    (hv : v ∉ g.nodes) : g.adj v = [] := by
  unfold GraphModel.adj
  cases h : assocFind v g.adjL with
  | none => rfl
  | some l =>
    exact absurd (hwf.2 _ (assocFind_mem h)).1 hv

/-!
## Walks

A walk is a nonempty node sequence whose consecutive pairs are directed
edges; the number of edges it traverses is its length minus one.  This is
the spec-side notion "directed path" (minimum over walks and over simple
paths coincide, since every walk contains a path with the same endpoints
and no more edges).
-/

def IsWalkFrom (g : GraphModel) (p : List Nat) (s t : Nat) : Prop :=
  p.head? = some s ∧ p.getLast? = some t ∧ List.Chain' (fun a b => b ∈ g.adj a) p

instance (g : GraphModel) (p : List Nat) (s t : Nat) : Decidable (IsWalkFrom g p s t) := by
  unfold IsWalkFrom; infer_instance

def Reachable (g : GraphModel) (s t : Nat) : Prop :=
  ∃ p, IsWalkFrom g p s t

theorem isWalkFrom_single (g : GraphModel) (s : Nat) : IsWalkFrom g [s] s s := by
  refine ⟨rfl, rfl, List.chain'_singleton s⟩

theorem IsWalkFrom.snoc {g : GraphModel} {p : List Nat} {s t u : Nat}
    (h : IsWalkFrom g p s t) (he : u ∈ g.adj t) : IsWalkFrom g (p ++ [u]) s u := by
  obtain ⟨h1, h2, h3⟩ := h
  refine ⟨?_, ?_, ?_⟩
  · cases p with
    | nil => simp at h1
    | cons a q => simpa using h1
  · simp
  · have hne : p ≠ [] := by intro hp; rw [hp] at h1; simp at h1
    rw [List.chain'_append]
    refine ⟨h3, List.chain'_singleton u, ?_⟩
    intro x hx y hy
    rw [h2] at hx
    simp at hx hy
    rw [hx] at he; rw [hy] at he; exact he

/-!
## Depth-first search (`Dfs::run` / `inner_dfs`, and the identical
`utils::dfs`)

The recursion of `inner_dfs` is modelled with explicit fuel bounding the
recursion depth (each recursive call marks a previously unvisited node
visited, so `|nodes| + 1` fuel always suffices, proved below).  The mutable
`cur` stack is threaded functionally with its head being the most recently
pushed node, so the Rust `cur` vector is `cur.reverse`.  `dfsChildren`
models the `any` loop over `iter_adj(from)`; `none` models fuel exhaustion
(which never occurs in a run started by `dfsRun`).
-/

def dfsChildren (step : List Nat → List Nat → Option (Bool × List Nat × List Nat)) :
    List Nat → List Nat → List Nat → Option (Bool × List Nat × List Nat)
  | visited, cur, [] => some (false, visited, cur)
  | visited, cur, a :: rest =>
    if a ∈ visited then dfsChildren step visited cur rest
    else
      match step visited (a :: cur) with
      | none => none
      | some (true, v1, c1) => some (true, v1, c1)
      | some (false, v1, c1) => dfsChildren step v1 c1.tail rest

def innerDfs (g : GraphModel) (tgt : Nat) :
    Nat → List Nat → List Nat → Option (Bool × List Nat × List Nat)
  | 0, _, _ => none
  | _ + 1, visited, [] => some (false, visited, [])
  | fuel + 1, visited, frm :: stk =>
    if frm = tgt then some (true, visited, frm :: stk)
    else
      dfsChildren (innerDfs g tgt fuel)
        (if frm ∈ visited then visited else frm :: visited)
        (frm :: stk) (g.adj frm)

/-- `Dfs::run` (equivalently `utils::dfs`): push `from` if both endpoints
are registered, run the recursive search, and keep the resulting stack only
when it has at least two nodes. -/
def dfsRun (g : GraphModel) (src tgt : Nat) : Option (List Nat) :=
  if src ∈ g.nodes ∧ tgt ∈ g.nodes then
    match innerDfs g tgt (g.nodes.length + 1) [] [src] with
    | none => none
    | some (_, _, c1) => if 2 ≤ c1.length then some c1.reverse else none
  else none

example : dfsRun { nodes := [1, 2, 3], adjL := [(1, [2]), (2, [3])] } 1 3 =
    some [1, 2, 3] := by decide
example : dfsRun { nodes := [1, 2, 3], adjL := [(1, [2])] } 1 3 = none := by decide
example : dfsRun { nodes := [1, 2], adjL := [(1, [2])] } 1 1 = none := by decide

/-- Count of registered nodes not yet visited; the measure showing the
recursion depth bound of `inner_dfs`. -/
def countNotIn : List Nat → List Nat → Nat
  | [], _ => 0
  | x :: t, v => (if x ∈ v then 0 else 1) + countNotIn t v

theorem countNotIn_mono (l : List Nat) {v w : List Nat} (h : ∀ x, x ∈ v → x ∈ w) :
    countNotIn l w ≤ countNotIn l v := by
  induction l with
  | nil => exact Nat.le_refl _
  | cons a t ih =>
    unfold countNotIn
    by_cases hw : a ∈ w
    · by_cases hv : a ∈ v
      · simp only [hw, hv, if_true]; omega
      · simp only [hw, hv, if_true, if_false]; omega
    · have hv : a ∉ v := fun hc => hw (h a hc)
      simp only [hw, hv, if_false]; omega

theorem countNotIn_cons_not_mem (l : List Nat) {v : List Nat} {a : Nat}
    (ha : a ∉ l) : countNotIn l (a :: v) = countNotIn l v := by
  induction l with
  | nil => rfl
  | cons b t ih =>
    have hba : b ≠ a := fun hc => ha (hc ▸ List.mem_cons_self b t)
    have hat : a ∉ t := fun hc => ha (List.mem_cons_of_mem _ hc)
    unfold countNotIn
    rw [ih hat]
    by_cases hbv : b ∈ v
    · rw [if_pos (List.mem_cons_of_mem _ hbv), if_pos hbv]
    · have h2 : b ∉ a :: v := by
        intro hc
        rcases List.mem_cons.mp hc with h1 | h1
        · exact hba h1
        · exact hbv h1
      rw [if_neg h2, if_neg hbv]

theorem countNotIn_insert {l : List Nat} (hl : l.Nodup) {v : List Nat} {a : Nat}
    (ha : a ∈ l) (hav : a ∉ v) : countNotIn l (a :: v) + 1 = countNotIn l v := by
  induction l with
  | nil => simp at ha
  | cons b t ih =>
    rcases List.mem_cons.mp ha with hb | ht
    · subst hb
      have hat : a ∉ t := (List.nodup_cons.mp hl).1
      unfold countNotIn
      rw [countNotIn_cons_not_mem t hat]
      rw [if_pos (List.mem_cons_self a v), if_neg hav]
      omega
    · have hba : b ≠ a := by
        intro hc; subst hc; exact (List.nodup_cons.mp hl).1 ht
      have ihv := ih (List.nodup_cons.mp hl).2 ht
      unfold countNotIn
      by_cases hbv : b ∈ v
      · rw [if_pos (List.mem_cons_of_mem _ hbv), if_pos hbv]
        omega
      · have h2 : b ∉ a :: v := by
          intro hc
          rcases List.mem_cons.mp hc with h1 | h1
          · exact hba h1
          · exact hbv h1
        rw [if_neg h2, if_neg hbv]
        omega

theorem countNotIn_pos {l v : List Nat} {a : Nat} (ha : a ∈ l) (hav : a ∉ v) :
    1 ≤ countNotIn l v := by
  induction l with
  | nil => simp at ha
  | cons b t ih =>
    unfold countNotIn
    rcases List.mem_cons.mp ha with hb | ht
    · subst hb; simp [hav]
    · have := ih ht; omega

theorem dfsChildren_mono_restore (step : List Nat → List Nat → Option (Bool × List Nat × List Nat))
    (hstep : ∀ v c r, step v c = some r → (∀ x ∈ v, x ∈ r.2.1) ∧ (r.1 = false → r.2.2 = c)) :
    ∀ (l visited cur : List Nat) r, dfsChildren step visited cur l = some r →
      (∀ x ∈ visited, x ∈ r.2.1) ∧ (r.1 = false → r.2.2 = cur) := by
  intro l
  induction l with
  | nil =>
    intro visited cur r h
    simp [dfsChildren] at h
    subst h
    exact ⟨fun x hx => hx, fun _ => rfl⟩
  | cons a rest ih =>
    intro visited cur r h
    unfold dfsChildren at h
    by_cases hav : a ∈ visited
    · rw [if_pos hav] at h
      exact ih visited cur r h
    · rw [if_neg hav] at h
      cases hs : step visited (a :: cur) with
      | none => rw [hs] at h; exact absurd h (by simp)
      | some s =>
        obtain ⟨b, v1, c1⟩ := s
        rw [hs] at h
        cases b with
        | true =>
          simp at h
          subst h
          exact ⟨fun x hx => (hstep _ _ _ hs).1 x hx, by simp⟩
        | false =>
          simp at h
          have h1 := hstep _ _ _ hs
          have h2 := ih v1 c1.tail r h
          refine ⟨fun x hx => h2.1 x (h1.1 x hx), ?_⟩
          intro hb
          have h3 : c1 = a :: cur := h1.2 rfl
          rw [h2.2 hb, h3]
          rfl

theorem innerDfs_mono_restore (g : GraphModel) (tgt : Nat) :
    ∀ (fuel : Nat) (visited cur : List Nat) r,
      innerDfs g tgt fuel visited cur = some r →
      (∀ x ∈ visited, x ∈ r.2.1) ∧ (r.1 = false → r.2.2 = cur) := by
  intro fuel
  induction fuel with
  | zero => intro visited cur r h; exact absurd h (by simp [innerDfs])
  | succ fuel ih =>
    intro visited cur r h
    cases cur with
    | nil =>
      simp [innerDfs] at h
      subst h
      exact ⟨fun x hx => hx, fun _ => rfl⟩
    | cons frm stk =>
      unfold innerDfs at h
      by_cases ht : frm = tgt
      · rw [if_pos ht] at h
        simp at h
        subst h
        exact ⟨fun x hx => hx, by simp⟩
      · rw [if_neg ht] at h
        have hsub : ∀ x ∈ visited, x ∈ (if frm ∈ visited then visited else frm :: visited) := by
          intro x hx
          by_cases hf : frm ∈ visited
          · rw [if_pos hf]; exact hx
          · rw [if_neg hf]; exact List.mem_cons_of_mem _ hx
        have := dfsChildren_mono_restore (innerDfs g tgt fuel) (fun v c r2 => ih v c r2)
          (g.adj frm) _ (frm :: stk) r h
        exact ⟨fun x hx => this.1 x (hsub x hx), this.2⟩

/-- Properties of a successful search below one node: the result stack
extends the input stack, starts with the target, stays duplicate-free, and
extends the edge chain of the input stack. -/
theorem dfsChildren_true (g : GraphModel) (tgt : Nat)
    (step : List Nat → List Nat → Option (Bool × List Nat × List Nat))
    (hstep_mr : ∀ v c r, step v c = some r → (∀ x ∈ v, x ∈ r.2.1) ∧ (r.1 = false → r.2.2 = c))
    (hstep_true : ∀ v a c v2 c2, (a :: c).Nodup → (∀ x ∈ c, x ∈ v) → a ∉ v →
      step v (a :: c) = some (true, v2, c2) →
      c2.head? = some tgt ∧ (∃ ext, c2 = ext ++ a :: c) ∧ c2.Nodup ∧
        (List.Chain' (fun x y => x ∈ g.adj y) (a :: c) →
          List.Chain' (fun x y => x ∈ g.adj y) c2))
    (frm : Nat) (stk : List Nat) :
    ∀ (l visited : List Nat) v1 c1,
      (∀ a ∈ l, a ∈ g.adj frm) →
      (frm :: stk).Nodup →
      (∀ x ∈ frm :: stk, x ∈ visited) →
      dfsChildren step visited (frm :: stk) l = some (true, v1, c1) →
      c1.head? = some tgt ∧ (∃ ext, c1 = ext ++ frm :: stk) ∧ c1.Nodup ∧
        (List.Chain' (fun x y => x ∈ g.adj y) (frm :: stk) →
          List.Chain' (fun x y => x ∈ g.adj y) c1) := by
  intro l
  induction l with
  | nil =>
    intro visited v1 c1 _ _ _ h
    simp [dfsChildren] at h
  | cons a rest ih =>
    intro visited v1 c1 hl hnd hsub h
    unfold dfsChildren at h
    by_cases hav : a ∈ visited
    · rw [if_pos hav] at h
      exact ih visited v1 c1 (fun b hb => hl b (List.mem_cons_of_mem _ hb)) hnd hsub h
    · rw [if_neg hav] at h
      cases hs : step visited (a :: frm :: stk) with
      | none => rw [hs] at h; exact absurd h (by simp)
      | some s =>
        obtain ⟨b, v2, c2⟩ := s
        rw [hs] at h
        cases b with
        | true =>
          simp at h
          obtain ⟨hb1, hb2⟩ := h
          rw [← hb2]
          have hacur : a ∉ frm :: stk := fun hc => hav (hsub a hc)
          have hnd2 : (a :: frm :: stk).Nodup := List.nodup_cons.mpr ⟨hacur, hnd⟩
          have hres := hstep_true visited a (frm :: stk) v2 c2 hnd2 hsub hav hs
          refine ⟨hres.1, ?_, hres.2.2.1, ?_⟩
          · obtain ⟨ext, hext⟩ := hres.2.1
            exact ⟨ext ++ [a], by rw [hext]; simp⟩
          · intro hch
            exact hres.2.2.2 (List.chain'_cons.mpr ⟨hl a (List.mem_cons_self _ _), hch⟩)
        | false =>
          simp at h
          have h1 := hstep_mr _ _ _ hs
          have h3 : c2 = a :: frm :: stk := h1.2 rfl
          have h4 : c2.tail = frm :: stk := by rw [h3]; rfl
          rw [h4] at h
          exact ih v2 v1 c1 (fun b hb => hl b (List.mem_cons_of_mem _ hb)) hnd
            (fun x hx => h1.1 x (hsub x hx)) h

theorem innerDfs_true (g : GraphModel) (tgt : Nat) :
    ∀ (fuel : Nat) (visited : List Nat) (frm : Nat) (stk : List Nat) v1 c1,
      (frm :: stk).Nodup →
      (∀ x ∈ stk, x ∈ visited) →
      frm ∉ visited →
      innerDfs g tgt fuel visited (frm :: stk) = some (true, v1, c1) →
      c1.head? = some tgt ∧ (∃ ext, c1 = ext ++ frm :: stk) ∧ c1.Nodup ∧
        (List.Chain' (fun x y => x ∈ g.adj y) (frm :: stk) →
          List.Chain' (fun x y => x ∈ g.adj y) c1) := by
  intro fuel
  induction fuel with
  | zero =>
    intro visited frm stk v1 c1 _ _ _ h
    exact absurd h (by simp [innerDfs])
  | succ fuel ih =>
    intro visited frm stk v1 c1 hnd hsub hfrm h
    unfold innerDfs at h
    by_cases ht : frm = tgt
    · rw [if_pos ht] at h
      simp at h
      obtain ⟨h1, h2⟩ := h
      subst h1; subst h2
      exact ⟨by rw [ht]; rfl, ⟨[], by simp⟩, hnd, fun hch => hch⟩
    · rw [if_neg ht, if_neg hfrm] at h
      have hsub2 : ∀ x ∈ frm :: stk, x ∈ frm :: visited := by
        intro x hx
        rcases List.mem_cons.mp hx with h1 | h1
        · exact h1 ▸ List.mem_cons_self _ _
        · exact List.mem_cons_of_mem _ (hsub x h1)
      exact dfsChildren_true g tgt (innerDfs g tgt fuel)
        (fun v c r => innerDfs_mono_restore g tgt fuel v c r)
        (fun v a c v2 c2 hnd2 hcs hav hs =>
          ih v a c v2 c2 hnd2 hcs hav hs)
        frm stk (g.adj frm) (frm :: visited) v1 c1
        (fun a ha => ha) hnd hsub2 h

theorem dfsChildren_isSome (g : GraphModel) (F : Nat)
    (step : List Nat → List Nat → Option (Bool × List Nat × List Nat))
    (hstep_mr : ∀ v c r, step v c = some r → (∀ x ∈ v, x ∈ r.2.1) ∧ (r.1 = false → r.2.2 = c))
    (hstep_some : ∀ v (a : Nat) c, a ∈ g.nodes → a ∉ v → countNotIn g.nodes v < F →
      (step v (a :: c)).isSome) :
    ∀ (l visited cur : List Nat),
      (∀ a ∈ l, a ∈ g.nodes) →
      countNotIn g.nodes visited < F →
      (dfsChildren step visited cur l).isSome := by
  intro l
  induction l with
  | nil => intro visited cur _ _; simp [dfsChildren]
  | cons a rest ih =>
    intro visited cur hl hcnt
    unfold dfsChildren
    by_cases hav : a ∈ visited
    · rw [if_pos hav]
      exact ih visited cur (fun b hb => hl b (List.mem_cons_of_mem _ hb)) hcnt
    · rw [if_neg hav]
      have hsome := hstep_some visited a cur (hl a (List.mem_cons_self _ _)) hav hcnt
      cases hs : step visited (a :: cur) with
      | none => rw [hs] at hsome; exact absurd hsome (by simp)
      | some s =>
        obtain ⟨b, v2, c2⟩ := s
        cases b with
        | true => simp
        | false =>
          have h1 := hstep_mr _ _ _ hs
          have hcnt2 : countNotIn g.nodes v2 ≤ countNotIn g.nodes visited :=
            countNotIn_mono g.nodes h1.1
          exact ih v2 c2.tail (fun b hb => hl b (List.mem_cons_of_mem _ hb))
            (Nat.lt_of_le_of_lt hcnt2 hcnt)

theorem innerDfs_isSome (g : GraphModel) (tgt : Nat) (hwf : g.WF) :
    ∀ (fuel : Nat) (visited : List Nat) (frm : Nat) (stk : List Nat),
      frm ∈ g.nodes → frm ∉ visited →
      countNotIn g.nodes visited < fuel →
      (innerDfs g tgt fuel visited (frm :: stk)).isSome := by
  intro fuel
  induction fuel with
  | zero => intro visited frm stk _ _ hcnt; exact absurd hcnt (by simp)
  | succ fuel ih =>
    intro visited frm stk hfn hfv hcnt
    unfold innerDfs
    by_cases ht : frm = tgt
    · rw [if_pos ht]; simp
    · rw [if_neg ht, if_neg hfv]
      have hdec := countNotIn_insert hwf.1 hfn hfv
      have hpos := countNotIn_pos hfn hfv
      apply dfsChildren_isSome g fuel (innerDfs g tgt fuel)
        (fun v c r => innerDfs_mono_restore g tgt fuel v c r)
      · intro v a c han hav hcntv
        exact ih v a c han hav hcntv
      · exact fun a ha => GraphModel.adj_subset g hwf frm a ha
      · omega

/-- Everything a caller learns from a successful `Dfs::run`: both endpoints
were registered and the returned list is a duplicate-free walk of length at
least 2 from `src` to `tgt`. -/
theorem dfsRun_some_spec (g : GraphModel) (src tgt : Nat) (p : List Nat)
    (h : dfsRun g src tgt = some p) :
    src ∈ g.nodes ∧ tgt ∈ g.nodes ∧ IsWalkFrom g p src tgt ∧ p.Nodup ∧ 2 ≤ p.length := by
  unfold dfsRun at h
  by_cases hreg : src ∈ g.nodes ∧ tgt ∈ g.nodes
  · rw [if_pos hreg] at h
    cases hs : innerDfs g tgt (g.nodes.length + 1) [] [src] with
    | none => rw [hs] at h; exact absurd h (by simp)
    | some r =>
      obtain ⟨b, v1, c1⟩ := r
      rw [hs] at h
      dsimp only at h
      by_cases hlen : 2 ≤ c1.length
      · rw [if_pos hlen] at h
        simp at h
        subst h
        cases b with
        | false =>
          have hres := (innerDfs_mono_restore g tgt _ _ _ _ hs).2 rfl
          simp at hres
          rw [hres] at hlen
          exact absurd hlen (by simp)
        | true =>
          have hres := innerDfs_true g tgt _ [] src [] v1 c1
            (List.nodup_singleton src) (by simp) (by simp) hs
          obtain ⟨hhead, ⟨ext, hext⟩, hnd, hch⟩ := hres
          have hchain : List.Chain' (fun x y => x ∈ g.adj y) c1 :=
            hch (List.chain'_singleton src)
          refine ⟨hreg.1, hreg.2, ⟨?_, ?_, ?_⟩, ?_, ?_⟩
          · rw [List.head?_reverse]
            rw [hext]
            simp
          · rw [List.getLast?_reverse]
            exact hhead
          · rw [List.chain'_reverse]
            exact hchain
          · exact List.nodup_reverse.mpr hnd
          · rw [List.length_reverse]
            exact hlen
      · rw [if_neg hlen] at h
        exact absurd h (by simp)
  · rw [if_neg hreg] at h
    exact absurd h (by simp)

/-!
## Dijkstra (`Dijkstra::run`, and the identical `utils::dijkstra`)

State: the `preds` HashMap (predecessor option and tentative `u32`
distance per node; modelled as a total function, with the key set of the
Rust map being exactly `g.nodes`) and the `BinaryHeap` (modelled as a list
of (node, cost) entries; `popMin` extracts a minimum-cost entry, which is
what `BinaryHeap::pop` returns under the reversed `Ord` of `NodeWithDist` —
ties are broken deterministically here, a refinement of the unspecified
heap tie order).  Distances are `Nat`; the lemmas below establish that all
distances stay at most `u32Max`, so no `u32` wrap-around is elided (see the
checked variant `dijkstraRunC`).  The loop gets explicit fuel; the measure
lemma shows `dijkstraFuel` always suffices.
-/

structure DState where
  preds : Nat → Option Nat × Nat
  heap : List (Nat × Nat)

def initCost (src v : Nat) : Nat := if v = src then 0 else u32Max

def dInit (g : GraphModel) (src : Nat) : DState :=
  { preds := fun v => (none, initCost src v)
    heap := g.nodes.map (fun v => (v, initCost src v)) }

def popMin : List (Nat × Nat) → Option ((Nat × Nat) × List (Nat × Nat))
  | [] => none
  | e :: rest =>
    match popMin rest with
    | none => some (e, [])
    | some (m, rest2) => if e.2 ≤ m.2 then some (e, rest) else some (m, e :: rest2)

/-- One relaxation: `alt = node_dist + 1`; on improvement update the
neighbor's predecessor and distance and push a fresh heap entry. -/
def relaxStep (node : Nat) (s : DState) (a : Nat) : DState :=
  let nd := (s.preds node).2
  let ad := (s.preds a).2
  if nd + 1 < ad then
    { preds := fun v => if v = a then (some node, nd + 1) else s.preds v
      heap := (a, nd + 1) :: s.heap }
  else s

def relaxAll (g : GraphModel) (node : Nat) (s : DState) : DState :=
  (g.adj node).foldl (relaxStep node) s

/-- The main loop: pop a minimum entry, stop on the infinite sentinel or
on the target, otherwise relax the popped node's out-neighbors.  `none`
models fuel exhaustion (shown impossible for `dijkstraFuel`). -/
def dloop (g : GraphModel) (tgt : Nat) : Nat → DState → Option DState
  | fuel, s =>
    match popMin s.heap with
    | none => some s
    | some ((node, cost), rest) =>
      if cost = u32Max ∨ node = tgt then some { s with heap := rest }
      else
        match fuel with
        | 0 => none
        | fuel + 1 => dloop g tgt fuel (relaxAll g node { s with heap := rest })

/-- Path reconstruction (`while cur != from { ret.push(cur); cur = preds[&cur].0.unwrap() }`),
producing the list in pushed order (target first); `none` models the
`unwrap` panic or fuel exhaustion, both impossible in a real run. -/
def walkBack (p : Nat → Option Nat × Nat) (src : Nat) : Nat → Nat → Option (List Nat)
  | 0, _ => none
  | fuel + 1, cur =>
    if cur = src then some [src]
    else
      match (p cur).1 with
      | none => none
      | some q => (walkBack p src fuel q).map (fun l => cur :: l)

def dijkstraFuel (g : GraphModel) (src : Nat) : Nat :=
  g.nodes.length + (g.nodes.map (initCost src)).sum + 1

def dijkstraFinal (g : GraphModel) (src tgt : Nat) : Option DState :=
  dloop g tgt (dijkstraFuel g src) (dInit g src)

/-- `Dijkstra::run` / `utils::dijkstra`: after the loop, the path is absent
exactly when `to` is not a `preds` key (not registered) or its predecessor
slot is `none`; otherwise walk the predecessor links back from `to` and
reverse. -/
def dijkstraRun (g : GraphModel) (src tgt : Nat) : Option (List Nat) :=
  match dijkstraFinal g src tgt with
  | none => none
  | some s1 =>
    if tgt ∈ g.nodes ∧ (s1.preds tgt).1.isSome then
      (walkBack s1.preds src ((s1.preds tgt).2 + 1) tgt).map List.reverse
    else none

example : dijkstraRun { nodes := [1, 2, 3], adjL := [(1, [2]), (2, [3])] } 1 3 =
    some [1, 2, 3] := by decide
example :
    dijkstraRun { nodes := [1, 2, 3, 4, 5], adjL := [(1, [2, 3]), (2, [3]), (3, [4, 5]), (4, [5])] } 1 5 = some [1, 3, 5] := by
  decide
example : dijkstraRun { nodes := [1, 2, 3], adjL := [(1, [2])] } 1 3 = none := by decide
example : dijkstraRun { nodes := [1, 2], adjL := [(1, [2]), (2, [1])] } 1 1 = none := by
  decide

def distOf (s : DState) (v : Nat) : Nat := (s.preds v).2

def predOf (s : DState) (v : Nat) : Option Nat := (s.preds v).1

def sumDists (g : GraphModel) (s : DState) : Nat := (g.nodes.map (distOf s)).sum

def dMeasure (g : GraphModel) (s : DState) : Nat := s.heap.length + sumDists g s

theorem popMin_eq_none {h : List (Nat × Nat)} : popMin h = none ↔ h = [] := by
  cases h with
  | nil => simp [popMin]
  | cons e rest =>
    simp only [popMin]
    constructor
    · intro hc
      cases h2 : popMin rest with
      | none =>
        rw [h2] at hc; dsimp only at hc; exact absurd hc (by simp)
      | some m =>
        obtain ⟨m1, rest2⟩ := m
        rw [h2] at hc; dsimp only at hc
        by_cases hle : e.2 ≤ m1.2
        · rw [if_pos hle] at hc; exact absurd hc (by simp)
        · rw [if_neg hle] at hc; exact absurd hc (by simp)
    · intro hc; exact absurd hc (by simp)

theorem popMin_mem {h : List (Nat × Nat)} {e : Nat × Nat} {rest : List (Nat × Nat)}
    (hp : popMin h = some (e, rest)) : e ∈ h := by
  induction h generalizing e rest with
  | nil => simp [popMin] at hp
  | cons a t ih =>
    simp only [popMin] at hp
    cases h2 : popMin t with
    | none =>
      rw [h2] at hp; dsimp only at hp
      simp at hp
      exact hp.1 ▸ List.mem_cons_self _ _
    | some m =>
      obtain ⟨m1, rest2⟩ := m
      rw [h2] at hp; dsimp only at hp
      by_cases hle : a.2 ≤ m1.2
      · rw [if_pos hle] at hp
        simp at hp
        exact hp.1 ▸ List.mem_cons_self _ _
      · rw [if_neg hle] at hp
        simp at hp
        exact List.mem_cons_of_mem _ (hp.1 ▸ ih h2)

theorem popMin_min {h : List (Nat × Nat)} {e : Nat × Nat} {rest : List (Nat × Nat)}
    (hp : popMin h = some (e, rest)) : ∀ e2 ∈ h, e.2 ≤ e2.2 := by
  induction h generalizing e rest with
  | nil => simp [popMin] at hp
  | cons a t ih =>
    simp only [popMin] at hp
    intro e2 he2
    cases h2 : popMin t with
    | none =>
      have ht : t = [] := popMin_eq_none.mp h2
      rw [h2] at hp; dsimp only at hp
      simp at hp
      subst ht
      rcases List.mem_cons.mp he2 with h3 | h3
      · rw [← hp.1, h3]
      · simp at h3
    | some m =>
      obtain ⟨m1, rest2⟩ := m
      rw [h2] at hp; dsimp only at hp
      by_cases hle : a.2 ≤ m1.2
      · rw [if_pos hle] at hp
        simp at hp
        rw [← hp.1]
        rcases List.mem_cons.mp he2 with h3 | h3
        · rw [h3]
        · exact Nat.le_trans hle (ih h2 e2 h3)
      · rw [if_neg hle] at hp
        simp at hp
        rw [← hp.1]
        rcases List.mem_cons.mp he2 with h3 | h3
        · rw [h3]; exact Nat.le_of_lt (Nat.lt_of_not_le hle)
        · exact ih h2 e2 h3

theorem popMin_rest_subset {h : List (Nat × Nat)} {e : Nat × Nat} {rest : List (Nat × Nat)}
    (hp : popMin h = some (e, rest)) : ∀ e2 ∈ rest, e2 ∈ h := by
  induction h generalizing e rest with
  | nil => simp [popMin] at hp
  | cons a t ih =>
    simp only [popMin] at hp
    intro e2 he2
    cases h2 : popMin t with
    | none =>
      rw [h2] at hp; dsimp only at hp
      simp at hp
      rw [hp.2] at he2
      simp at he2
    | some m =>
      obtain ⟨m1, rest2⟩ := m
      rw [h2] at hp; dsimp only at hp
      by_cases hle : a.2 ≤ m1.2
      · rw [if_pos hle] at hp
        simp at hp
        rw [← hp.2] at he2
        exact List.mem_cons_of_mem _ he2
      · rw [if_neg hle] at hp
        simp at hp
        rw [← hp.2] at he2
        rcases List.mem_cons.mp he2 with h3 | h3
        · exact h3 ▸ List.mem_cons_self _ _
        · exact List.mem_cons_of_mem _ (ih h2 e2 h3)

theorem popMin_mem_rest {h : List (Nat × Nat)} {e : Nat × Nat} {rest : List (Nat × Nat)}
    (hp : popMin h = some (e, rest)) : ∀ e2 ∈ h, e2.1 ≠ e.1 → e2 ∈ rest := by
  induction h generalizing e rest with
  | nil => simp [popMin] at hp
  | cons a t ih =>
    simp only [popMin] at hp
    intro e2 he2 hne
    cases h2 : popMin t with
    | none =>
      have ht : t = [] := popMin_eq_none.mp h2
      rw [h2] at hp; dsimp only at hp
      simp at hp
      subst ht
      rcases List.mem_cons.mp he2 with h3 | h3
      · rw [h3, hp.1] at hne
        exact absurd rfl hne
      · simp at h3
    | some m =>
      obtain ⟨m1, rest2⟩ := m
      rw [h2] at hp; dsimp only at hp
      by_cases hle : a.2 ≤ m1.2
      · rw [if_pos hle] at hp
        simp at hp
        rw [← hp.2]
        rcases List.mem_cons.mp he2 with h3 | h3
        · rw [h3, hp.1] at hne
          exact absurd rfl hne
        · exact h3
      · rw [if_neg hle] at hp
        simp at hp
        rw [← hp.2]
        rcases List.mem_cons.mp he2 with h3 | h3
        · exact h3 ▸ List.mem_cons_self _ _
        · refine List.mem_cons_of_mem _ (ih h2 e2 h3 ?_)
          rw [hp.1]
          exact hne

theorem popMin_length {h : List (Nat × Nat)} {e : Nat × Nat} {rest : List (Nat × Nat)}
    (hp : popMin h = some (e, rest)) : rest.length + 1 = h.length := by
  induction h generalizing e rest with
  | nil => simp [popMin] at hp
  | cons a t ih =>
    simp only [popMin] at hp
    cases h2 : popMin t with
    | none =>
      have ht : t = [] := popMin_eq_none.mp h2
      rw [h2] at hp; dsimp only at hp
      simp at hp
      subst ht
      rw [hp.2]
      rfl
    | some m =>
      obtain ⟨m1, rest2⟩ := m
      rw [h2] at hp; dsimp only at hp
      by_cases hle : a.2 ≤ m1.2
      · rw [if_pos hle] at hp
        simp at hp
        rw [← hp.2]
        rfl
      · rw [if_neg hle] at hp
        simp at hp
        rw [← hp.2]
        simp
        exact ih h2

/-- Predecessor-map invariant of the Dijkstra loop (independent of the
heap): distances are bounded by the sentinel, the source keeps distance 0
and no predecessor, every finite distance is witnessed by a walk of exactly
that many edges, and predecessor links point along edges to strictly
smaller distances. -/
structure PInv (g : GraphModel) (src : Nat) (s : DState) : Prop where
  dist_le : ∀ v, distOf s v ≤ u32Max
  src_dist : distOf s src = 0
  src_pred : predOf s src = none
  walk : ∀ v, distOf s v < u32Max → ∃ p, IsWalkFrom g p src v ∧ p.length = distOf s v + 1
  pred_some : ∀ v u, predOf s v = some u →
    v ∈ g.adj u ∧ distOf s u + 1 ≤ distOf s v ∧ distOf s v < u32Max
  fin_pred : ∀ v, distOf s v < u32Max → v ≠ src → (predOf s v).isSome

/-- Heap entries never undercut the recorded distance of their node and
never exceed the sentinel. -/
structure HBasic (s : DState) : Prop where
  entry_dist : ∀ e ∈ s.heap, distOf s e.1 ≤ e.2
  entry_le : ∀ e ∈ s.heap, e.2 ≤ u32Max

/-- "No lost update" frontier invariant, with the node currently being
relaxed exempted: every finite node either has all its out-edges relaxed at
its current distance or still owns a fresh heap entry. -/
def FreshExcept (g : GraphModel) (x : Nat) (s : DState) : Prop :=
  ∀ u v, v ∈ g.adj u → distOf s u < u32Max → u ≠ x →
    distOf s v ≤ distOf s u + 1 ∨ (u, distOf s u) ∈ s.heap

def Fresh (g : GraphModel) (s : DState) : Prop :=
  ∀ u v, v ∈ g.adj u → distOf s u < u32Max →
    distOf s v ≤ distOf s u + 1 ∨ (u, distOf s u) ∈ s.heap

theorem relaxStep_not_fired {node : Nat} {s : DState} {a : Nat}
    (h : ¬ (s.preds node).2 + 1 < (s.preds a).2) : relaxStep node s a = s := by
  unfold relaxStep
  simp only [if_neg h]

theorem relaxStep_fired {node : Nat} {s : DState} {a : Nat}
    (h : (s.preds node).2 + 1 < (s.preds a).2) :
    relaxStep node s a =
      { preds := fun v => if v = a then (some node, (s.preds node).2 + 1) else s.preds v
        heap := (a, (s.preds node).2 + 1) :: s.heap } := by
  unfold relaxStep
  simp only [if_pos h]

theorem relaxStep_dist_mono (node : Nat) (s : DState) (a : Nat) (v : Nat) :
    distOf (relaxStep node s a) v ≤ distOf s v := by
  by_cases h : (s.preds node).2 + 1 < (s.preds a).2
  · rw [relaxStep_fired h]
    unfold distOf
    by_cases hv : v = a
    · simp only [hv, if_pos rfl]
      subst hv
      exact Nat.le_of_lt h
    · simp only [if_neg hv]
      exact Nat.le_refl _
  · rw [relaxStep_not_fired h]

theorem relaxStep_dist_other {node : Nat} {s : DState} {a : Nat} {v : Nat} (hv : v ≠ a) :
    distOf (relaxStep node s a) v = distOf s v := by
  by_cases h : (s.preds node).2 + 1 < (s.preds a).2
  · rw [relaxStep_fired h]
    unfold distOf
    simp only [if_neg hv]
  · rw [relaxStep_not_fired h]

theorem relaxStep_pred_other {node : Nat} {s : DState} {a : Nat} {v : Nat} (hv : v ≠ a) :
    predOf (relaxStep node s a) v = predOf s v := by
  by_cases h : (s.preds node).2 + 1 < (s.preds a).2
  · rw [relaxStep_fired h]
    unfold predOf
    simp only [if_neg hv]
  · rw [relaxStep_not_fired h]

theorem relaxStep_dist_node (node : Nat) (s : DState) (a : Nat) :
    distOf (relaxStep node s a) node = distOf s node := by
  by_cases hv : node = a
  · subst hv
    by_cases h : (s.preds node).2 + 1 < (s.preds node).2
    · exact absurd h (by omega)
    · rw [relaxStep_not_fired h]
  · exact relaxStep_dist_other hv

theorem relaxStep_dist_bound (node : Nat) (s : DState) (a : Nat) :
    distOf (relaxStep node s a) a ≤ distOf s node + 1 := by
  by_cases h : (s.preds node).2 + 1 < (s.preds a).2
  · rw [relaxStep_fired h]
    unfold distOf
    simp only [if_pos rfl]
    exact Nat.le_refl _
  · rw [relaxStep_not_fired h]
    unfold distOf at h ⊢
    omega

theorem relaxStep_heap_super (node : Nat) (s : DState) (a : Nat) :
    ∀ e ∈ s.heap, e ∈ (relaxStep node s a).heap := by
  intro e he
  by_cases h : (s.preds node).2 + 1 < (s.preds a).2
  · rw [relaxStep_fired h]
    exact List.mem_cons_of_mem _ he
  · rw [relaxStep_not_fired h]
    exact he

theorem relaxStep_dist_fired {node : Nat} {s : DState} {a : Nat}
    (h : (s.preds node).2 + 1 < (s.preds a).2) :
    distOf (relaxStep node s a) a = distOf s node + 1 := by
  rw [relaxStep_fired h]
  unfold distOf
  simp

theorem relaxStep_pred_fired {node : Nat} {s : DState} {a : Nat}
    (h : (s.preds node).2 + 1 < (s.preds a).2) :
    predOf (relaxStep node s a) a = some node := by
  rw [relaxStep_fired h]
  unfold predOf
  simp

theorem relaxStep_heap_cases (node : Nat) (s : DState) (a : Nat) :
    ∀ e ∈ (relaxStep node s a).heap, e ∈ s.heap ∨
      (e = (a, distOf s node + 1) ∧ distOf (relaxStep node s a) a = distOf s node + 1 ∧
        distOf s node + 1 < distOf s a) := by
  intro e he
  by_cases h : (s.preds node).2 + 1 < (s.preds a).2
  · rw [relaxStep_fired h] at he
    rcases List.mem_cons.mp he with h1 | h1
    · right
      exact ⟨h1, relaxStep_dist_fired h, h⟩
    · left; exact h1
  · rw [relaxStep_not_fired h] at he
    left; exact he

theorem relaxStep_pred_cases (node : Nat) (s : DState) (a : Nat) (v : Nat) :
    predOf (relaxStep node s a) v = predOf s v ∨
      (v = a ∧ predOf (relaxStep node s a) v = some node ∧
        distOf (relaxStep node s a) v = distOf s node + 1 ∧
        distOf s node + 1 < distOf s a) := by
  by_cases h : (s.preds node).2 + 1 < (s.preds a).2
  · by_cases hv : v = a
    · right
      refine ⟨hv, ?_, ?_, h⟩
      · rw [hv]; exact relaxStep_pred_fired h
      · rw [hv]; exact relaxStep_dist_fired h
    · left
      exact relaxStep_pred_other hv
  · left
    rw [relaxStep_not_fired h]

theorem relaxStep_pinv {g : GraphModel} {src node : Nat} {s : DState} {a : Nat}
    (hP : PInv g src s) (ha : a ∈ g.adj node) (hnd : distOf s node < u32Max) :
    PInv g src (relaxStep node s a) := by
  by_cases h : (s.preds node).2 + 1 < (s.preds a).2
  case neg => rw [relaxStep_not_fired h]; exact hP
  case pos =>
  have hdaU : distOf s a ≤ u32Max := hP.dist_le a
  have hfireU : distOf s node + 1 < u32Max := by
    unfold distOf at h ⊢
    unfold distOf at hdaU
    omega
  have hasrc : a ≠ src := by
    intro hc
    have h0 := hP.src_dist
    rw [hc] at h
    unfold distOf at h0
    omega
  have hda : distOf (relaxStep node s a) a = distOf s node + 1 := relaxStep_dist_fired h
  constructor
  · intro v
    by_cases hv : v = a
    · rw [hv, hda]; omega
    · rw [relaxStep_dist_other hv]; exact hP.dist_le v
  · rw [relaxStep_dist_other (fun hc => hasrc hc.symm)]
    exact hP.src_dist
  · rw [relaxStep_pred_other (fun hc => hasrc hc.symm)]
    exact hP.src_pred
  · intro v hv
    by_cases hva : v = a
    · rw [hva, hda]
      obtain ⟨p, hp, hlen⟩ := hP.walk node hnd
      refine ⟨p ++ [a], hp.snoc ha, ?_⟩
      rw [List.length_append, hlen]
      rfl
    · rw [relaxStep_dist_other hva] at hv ⊢
      exact hP.walk v hv
  · intro v u hpred
    by_cases hva : v = a
    · rw [hva, relaxStep_pred_fired h] at hpred
      have hu : u = node := by
        injection hpred with h2
        exact h2.symm
      rw [hva, hda, hu, relaxStep_dist_node]
      exact ⟨ha, Nat.le_refl _, hfireU⟩
    · rw [relaxStep_pred_other hva] at hpred
      obtain ⟨he, hle, hU⟩ := hP.pred_some v u hpred
      rw [relaxStep_dist_other hva]
      have hmono := relaxStep_dist_mono node s a u
      exact ⟨he, by omega, hU⟩
  · intro v hvU hvsrc
    by_cases hva : v = a
    · rw [hva, relaxStep_pred_fired h]
      rfl
    · rw [relaxStep_dist_other hva] at hvU
      rw [relaxStep_pred_other hva]
      exact hP.fin_pred v hvU hvsrc

theorem relaxStep_hbasic {g : GraphModel} {src node : Nat} {s : DState} {a : Nat}
    (hP : PInv g src s) (hB : HBasic s) :
    HBasic (relaxStep node s a) := by
  constructor
  · intro e he
    rcases relaxStep_heap_cases node s a e he with h1 | h1
    · have := hB.entry_dist e h1
      have hmono := relaxStep_dist_mono node s a e.1
      omega
    · rw [h1.1]
      exact Nat.le_of_eq h1.2.1
  · intro e he
    rcases relaxStep_heap_cases node s a e he with h1 | h1
    · exact hB.entry_le e h1
    · rw [h1.1]
      have h2 := hP.dist_le a
      have h3 := h1.2.2
      omega

theorem relaxStep_fresh_except {g : GraphModel} {x node : Nat} {s : DState} {a : Nat}
    (hf : FreshExcept g x s) : FreshExcept g x (relaxStep node s a) := by
  intro u v hedge hdu hux
  by_cases h : (s.preds node).2 + 1 < (s.preds a).2
  case neg => rw [relaxStep_not_fired h] at hdu ⊢; exact hf u v hedge hdu hux
  case pos =>
  by_cases hua : u = a
  · right
    rw [hua, relaxStep_dist_fired h]
    rw [relaxStep_fired h]
    exact List.mem_cons_self _ _
  · rw [relaxStep_dist_other hua] at hdu ⊢
    rcases hf u v hedge hdu hux with h1 | h1
    · left
      have hmono := relaxStep_dist_mono node s a v
      omega
    · right
      exact relaxStep_heap_super node s a _ h1

theorem sum_map_update {l : List Nat} (hnd : l.Nodup) (f f2 : Nat → Nat) {a : Nat}
    (ha : a ∈ l) (hothers : ∀ v, v ≠ a → f2 v = f v) :
    (l.map f2).sum + f a = (l.map f).sum + f2 a := by
  induction l with
  | nil => simp at ha
  | cons b t ih =>
    rcases List.mem_cons.mp ha with hb | ht
    · have hat : a ∉ t := by
        rw [hb]
        exact (List.nodup_cons.mp hnd).1
      have hmaps : t.map f2 = t.map f := by
        apply List.map_congr_left
        intro x hx
        exact hothers x (fun hc => hat (hc ▸ hx))
      simp only [List.map_cons, List.sum_cons, hmaps, ← hb]
      omega
    · have hba : b ≠ a := by
        intro hc
        rw [hc] at hnd
        exact (List.nodup_cons.mp hnd).1 ht
      have ihv := ih (List.nodup_cons.mp hnd).2 ht
      simp only [List.map_cons, List.sum_cons]
      rw [hothers b hba]
      omega

theorem relaxStep_measure {g : GraphModel} (hwf : g.WF) (node : Nat) (s : DState) (a : Nat)
    (ha : a ∈ g.adj node) : dMeasure g (relaxStep node s a) ≤ dMeasure g s := by
  by_cases h : (s.preds node).2 + 1 < (s.preds a).2
  · have han : a ∈ g.nodes := GraphModel.adj_subset g hwf node a ha
    have hsum := sum_map_update hwf.1 (distOf s) (distOf (relaxStep node s a))
      han (fun v hv => relaxStep_dist_other hv)
    have hda : distOf (relaxStep node s a) a = distOf s node + 1 := relaxStep_dist_fired h
    have hlen : (relaxStep node s a).heap.length = s.heap.length + 1 := by
      rw [relaxStep_fired h]
      rfl
    have hlt : distOf s node + 1 < distOf s a := h
    have e1 : sumDists g (relaxStep node s a) + distOf s a =
        sumDists g s + (distOf s node + 1) := by
      unfold sumDists
      rw [← hda]
      exact hsum
    unfold dMeasure
    omega
  · rw [relaxStep_not_fired h]

/-- Cumulative effect of relaxing every out-neighbor of `node` (the
`for_each` over `iter_adj(node)`). -/
theorem relaxList_spec (g : GraphModel) (src node : Nat) :
    ∀ (l : List Nat), (∀ a ∈ l, a ∈ g.adj node) →
    ∀ s : DState, PInv g src s → HBasic s → distOf s node < u32Max →
      PInv g src (l.foldl (relaxStep node) s) ∧
      HBasic (l.foldl (relaxStep node) s) ∧
      distOf (l.foldl (relaxStep node) s) node = distOf s node ∧
      (∀ v, distOf (l.foldl (relaxStep node) s) v ≤ distOf s v) ∧
      (∀ e ∈ s.heap, e ∈ (l.foldl (relaxStep node) s).heap) ∧
      (∀ a ∈ l, distOf (l.foldl (relaxStep node) s) a ≤ distOf s node + 1) ∧
      (∀ x, FreshExcept g x s → FreshExcept g x (l.foldl (relaxStep node) s)) ∧
      (g.WF → dMeasure g (l.foldl (relaxStep node) s) ≤ dMeasure g s) := by
  intro l
  induction l with
  | nil =>
    intro _ s hP hB hnd
    refine ⟨hP, hB, rfl, fun v => Nat.le_refl _, fun e he => he, ?_, fun x hf => hf, ?_⟩
    · intro a ha; simp at ha
    · intro _; exact Nat.le_refl _
  | cons a rest ih =>
    intro hl s hP hB hnd
    have ha : a ∈ g.adj node := hl a (List.mem_cons_self _ _)
    have hrest : ∀ b ∈ rest, b ∈ g.adj node := fun b hb => hl b (List.mem_cons_of_mem _ hb)
    have hP1 := relaxStep_pinv hP ha hnd
    have hB1 : HBasic (relaxStep node s a) := relaxStep_hbasic hP hB
    have hnd1 : distOf (relaxStep node s a) node < u32Max := by
      rw [relaxStep_dist_node]; exact hnd
    have hres := ih hrest (relaxStep node s a) hP1 hB1 hnd1
    simp only [List.foldl_cons]
    obtain ⟨r1, r2, r3, r4, r5, r6, r7, r8⟩ := hres
    refine ⟨r1, r2, ?_, ?_, ?_, ?_, ?_, ?_⟩
    · rw [r3, relaxStep_dist_node]
    · intro v
      have h1 := relaxStep_dist_mono node s a v
      have h2 := r4 v
      omega
    · intro e he
      exact r5 e (relaxStep_heap_super node s a e he)
    · intro b hb
      rcases List.mem_cons.mp hb with h1 | h1
      · rw [h1]
        have hstep := relaxStep_dist_bound node s a
        have h2 := r4 a
        omega
      · have h2 := r6 b h1
        rw [relaxStep_dist_node] at h2
        exact h2
    · intro x hf
      exact r7 x (relaxStep_fresh_except hf)
    · intro hwf
      have h1 := relaxStep_measure hwf node s a ha
      have h2 := r8 hwf
      omega

theorem pinv_set_heap {g : GraphModel} {src : Nat} {s : DState} (hP : PInv g src s)
    (h2 : List (Nat × Nat)) : PInv g src { s with heap := h2 } := by
  constructor
  · exact hP.dist_le
  · exact hP.src_dist
  · exact hP.src_pred
  · exact hP.walk
  · exact hP.pred_some
  · exact hP.fin_pred

theorem hbasic_set_heap {s : DState} (hB : HBasic s) {h2 : List (Nat × Nat)}
    (hsub : ∀ e ∈ h2, e ∈ s.heap) : HBasic { s with heap := h2 } := by
  constructor
  · intro e he
    exact hB.entry_dist e (hsub e he)
  · intro e he
    exact hB.entry_le e (hsub e he)

/-- Induction along a walk: the target either already carries a small
enough distance, or the walk crosses a node that still owns a fresh heap
entry of strictly smaller cost. -/
theorem dijkstra_walk_bound (g : GraphModel) (src : Nat) (s : DState)
    (hP : PInv g src s) (hfresh : Fresh g s) :
    ∀ p v, IsWalkFrom g p src v → p.length ≤ u32Max →
      distOf s v + 1 ≤ p.length ∨ ∃ e ∈ s.heap, e.2 + 2 ≤ p.length := by
  intro p
  induction p using List.reverseRecOn with
  | nil =>
    intro v h _
    exact absurd h.1 (by simp)
  | append_singleton q a ih =>
    intro v h hlen
    have hav : a = v := by
      have h2 := h.2.1
      simp at h2
      exact h2
    subst hav
    cases hq : q with
    | nil =>
      subst hq
      have h1 : a = src := by
        have := h.1
        simp at this
        exact this
      left
      rw [h1, hP.src_dist]
      simp
    | cons c q2 =>
      subst hq
      have hqne : (c :: q2) ≠ ([] : List Nat) := by simp
      have hu := List.getLast?_eq_getLast (c :: q2) hqne
      set u := (c :: q2).getLast hqne with hudef
      have hchain := List.chain'_append.mp h.2.2
      have hedge : a ∈ g.adj u := by
        apply hchain.2.2 u
        · simp [hu]
        · rfl
      have hwalkq : IsWalkFrom g (c :: q2) src u := by
        refine ⟨?_, hu, hchain.1⟩
        have h1 := h.1
        simp at h1 ⊢
        exact h1
      have hlenq : (c :: q2).length ≤ u32Max := by
        rw [List.length_append] at hlen
        omega
      have hlen2 : ((c :: q2) ++ [a]).length = (c :: q2).length + 1 := by
        rw [List.length_append]
        rfl
      rcases ih u hwalkq hlenq with h1 | h1
      · have hdu : distOf s u < u32Max := by omega
        rcases hfresh u a hedge hdu with h2 | h2
        · left
          omega
        · right
          exact ⟨(u, distOf s u), h2, by omega⟩
      · right
        obtain ⟨e, he, hbound⟩ := h1
        exact ⟨e, he, by omega⟩

/-- One non-break loop body: pop plus relaxation of the popped node's
neighbors preserves all invariants. -/
theorem dloop_body_spec (g : GraphModel) (src : Nat) {s : DState}
    {node cost : Nat} {rest : List (Nat × Nat)}
    (hP : PInv g src s) (hB : HBasic s)
    (hpop : popMin s.heap = some ((node, cost), rest)) (hcost : cost ≠ u32Max) :
    PInv g src (relaxAll g node { s with heap := rest }) ∧
    HBasic (relaxAll g node { s with heap := rest }) ∧
    (Fresh g s → Fresh g (relaxAll g node { s with heap := rest })) ∧
    (g.WF → dMeasure g (relaxAll g node { s with heap := rest }) + 1 ≤ dMeasure g s) := by
  have hmemPop : (node, cost) ∈ s.heap := popMin_mem hpop
  have hndcost : distOf s node ≤ cost := hB.entry_dist (node, cost) hmemPop
  have hcostU : cost ≤ u32Max := hB.entry_le (node, cost) hmemPop
  have hndU : distOf s node < u32Max := by omega
  have hPp : PInv g src { s with heap := rest } := pinv_set_heap hP rest
  have hBp : HBasic { s with heap := rest } :=
    hbasic_set_heap hB (popMin_rest_subset hpop)
  have hndp : distOf { s with heap := rest } node < u32Max := hndU
  have hres := relaxList_spec g src node (g.adj node) (fun a ha => ha)
    { s with heap := rest } hPp hBp hndp
  obtain ⟨r1, r2, r3, r4, r5, r6, r7, r8⟩ := hres
  refine ⟨r1, r2, ?_, ?_⟩
  · intro hfresh
    have hfe : FreshExcept g node { s with heap := rest } := by
      intro u v hedge hdu hune
      rcases hfresh u v hedge hdu with h1 | h1
      · left; exact h1
      · right
        exact popMin_mem_rest hpop (u, distOf s u) h1 hune
    have hfe2 := r7 node hfe
    intro u v hedge hdu
    by_cases hun : u = node
    · left
      simp only [relaxAll]
      have h6 := r6 v (hun ▸ hedge)
      rw [hun, r3]
      exact h6
    · exact hfe2 u v hedge hdu hun
  · intro hwf
    have h8 := r8 hwf
    have hlen := popMin_length hpop
    have hds : distOf { s with heap := rest } = distOf s := by
      funext v
      rfl
    have hm2 : dMeasure g { s with heap := rest } + 1 = dMeasure g s := by
      unfold dMeasure sumDists
      rw [hds]
      show rest.length + (List.map (distOf s) g.nodes).sum + 1 =
        s.heap.length + (List.map (distOf s) g.nodes).sum
      omega
    simp only [relaxAll]
    simp only [relaxAll] at h8
    omega

/-- What the finished loop guarantees: the predecessor invariant still
holds, and (when the frontier invariant held) the recorded distance of
`tgt` undercuts the length of every walk from the source to `tgt`. -/
theorem dloop_spec (g : GraphModel) (src tgt : Nat) :
    ∀ (fuel : Nat) (s s1 : DState), PInv g src s → HBasic s →
      dloop g tgt fuel s = some s1 →
      PInv g src s1 ∧
      (Fresh g s → ∀ q, IsWalkFrom g q src tgt → q.length ≤ u32Max →
        distOf s1 tgt + 1 ≤ q.length) := by
  intro fuel
  induction fuel with
  | zero =>
    intro s s1 hP hB hrun
    unfold dloop at hrun
    cases hpop : popMin s.heap with
    | none =>
      rw [hpop] at hrun
      simp at hrun
      subst hrun
      refine ⟨hP, ?_⟩
      intro hfresh q hq hlen
      rcases dijkstra_walk_bound g src s hP hfresh q tgt hq hlen with h1 | h1
      · exact h1
      · obtain ⟨e, he, _⟩ := h1
        rw [popMin_eq_none.mp hpop] at he
        simp at he
    | some r =>
      obtain ⟨⟨node, cost⟩, rest⟩ := r
      rw [hpop] at hrun
      dsimp only at hrun
      by_cases hbr : cost = u32Max ∨ node = tgt
      · rw [if_pos hbr] at hrun
        simp at hrun
        subst hrun
        refine ⟨pinv_set_heap hP rest, ?_⟩
        intro hfresh q hq hlen
        rcases dijkstra_walk_bound g src s hP hfresh q tgt hq hlen with h1 | h1
        · exact h1
        · obtain ⟨e, he, hb⟩ := h1
          have hmin := popMin_min hpop e he
          have heU := hB.entry_le e he
          rcases hbr with hU | htgt
          · rw [hU] at hmin
            omega
          · have hdt : distOf s tgt ≤ cost := by
              have := hB.entry_dist (node, cost) (popMin_mem hpop)
              rw [htgt] at this
              exact this
            have hds : distOf { s with heap := rest } tgt = distOf s tgt := rfl
            omega
      · rw [if_neg hbr] at hrun
        exact absurd hrun (by simp)
  | succ fuel ih =>
    intro s s1 hP hB hrun
    unfold dloop at hrun
    cases hpop : popMin s.heap with
    | none =>
      rw [hpop] at hrun
      simp at hrun
      subst hrun
      refine ⟨hP, ?_⟩
      intro hfresh q hq hlen
      rcases dijkstra_walk_bound g src s hP hfresh q tgt hq hlen with h1 | h1
      · exact h1
      · obtain ⟨e, he, _⟩ := h1
        rw [popMin_eq_none.mp hpop] at he
        simp at he
    | some r =>
      obtain ⟨⟨node, cost⟩, rest⟩ := r
      rw [hpop] at hrun
      dsimp only at hrun
      by_cases hbr : cost = u32Max ∨ node = tgt
      · rw [if_pos hbr] at hrun
        simp at hrun
        subst hrun
        refine ⟨pinv_set_heap hP rest, ?_⟩
        intro hfresh q hq hlen
        rcases dijkstra_walk_bound g src s hP hfresh q tgt hq hlen with h1 | h1
        · exact h1
        · obtain ⟨e, he, hb⟩ := h1
          have hmin := popMin_min hpop e he
          have heU := hB.entry_le e he
          rcases hbr with hU | htgt
          · rw [hU] at hmin
            omega
          · have hdt : distOf s tgt ≤ cost := by
              have := hB.entry_dist (node, cost) (popMin_mem hpop)
              rw [htgt] at this
              exact this
            have hds : distOf { s with heap := rest } tgt = distOf s tgt := rfl
            omega
      · rw [if_neg hbr] at hrun
        have hcost : cost ≠ u32Max := fun hc => hbr (Or.inl hc)
        have hbody := dloop_body_spec g src hP hB hpop hcost
        have hres := ih _ s1 hbody.1 hbody.2.1 hrun
        refine ⟨hres.1, ?_⟩
        intro hfresh
        exact hres.2 (hbody.2.2.1 hfresh)

theorem dloop_isSome (g : GraphModel) (src tgt : Nat) (hwf : g.WF) :
    ∀ (fuel : Nat) (s : DState), PInv g src s → HBasic s →
      dMeasure g s ≤ fuel → (dloop g tgt fuel s).isSome := by
  intro fuel
  induction fuel with
  | zero =>
    intro s hP hB hm
    unfold dloop
    cases hpop : popMin s.heap with
    | none => simp
    | some r =>
      obtain ⟨⟨node, cost⟩, rest⟩ := r
      have hlen := popMin_length hpop
      have : 1 ≤ dMeasure g s := by
        unfold dMeasure
        omega
      omega
  | succ fuel ih =>
    intro s hP hB hm
    unfold dloop
    cases hpop : popMin s.heap with
    | none => simp
    | some r =>
      obtain ⟨⟨node, cost⟩, rest⟩ := r
      dsimp only
      by_cases hbr : cost = u32Max ∨ node = tgt
      · rw [if_pos hbr]
        simp
      · rw [if_neg hbr]
        have hcost : cost ≠ u32Max := fun hc => hbr (Or.inl hc)
        have hbody := dloop_body_spec g src hP hB hpop hcost
        apply ih _ hbody.1 hbody.2.1
        have := hbody.2.2.2 hwf
        omega

theorem pinv_init (g : GraphModel) (src : Nat) : PInv g src (dInit g src) := by
  constructor
  · intro v
    unfold distOf dInit initCost
    dsimp only
    by_cases hv : v = src
    · rw [if_pos hv]; omega
    · rw [if_neg hv]
  · unfold distOf dInit initCost
    dsimp only
    rw [if_pos rfl]
  · rfl
  · intro v hv
    unfold distOf dInit initCost at hv ⊢
    dsimp only at hv ⊢
    by_cases hvs : v = src
    · rw [hvs]
      refine ⟨[src], isWalkFrom_single g src, ?_⟩
      rw [if_pos rfl]
      rfl
    · rw [if_neg hvs] at hv
      exact absurd hv (by omega)
  · intro v u hpred
    unfold predOf dInit at hpred
    dsimp only at hpred
    exact absurd hpred (by simp)
  · intro v hv hvs
    unfold distOf dInit initCost at hv
    dsimp only at hv
    rw [if_neg hvs] at hv
    exact absurd hv (by omega)

theorem hbasic_init (g : GraphModel) (src : Nat) : HBasic (dInit g src) := by
  constructor
  · intro e he
    unfold dInit at he
    dsimp only at he
    obtain ⟨v, _, hv⟩ := List.mem_map.mp he
    rw [← hv]
    unfold distOf dInit
    dsimp only
    exact Nat.le_refl _
  · intro e he
    unfold dInit at he
    dsimp only at he
    obtain ⟨v, _, hv⟩ := List.mem_map.mp he
    rw [← hv]
    unfold initCost
    by_cases hvs : v = src
    · dsimp only
      rw [if_pos hvs]
      omega
    · dsimp only
      rw [if_neg hvs]

theorem fresh_init (g : GraphModel) (src : Nat) (hsrc : src ∈ g.nodes) :
    Fresh g (dInit g src) := by
  intro u v hedge hdu
  have hus : u = src := by
    unfold distOf dInit initCost at hdu
    dsimp only at hdu
    by_cases h : u = src
    · exact h
    · rw [if_neg h] at hdu
      exact absurd hdu (by omega)
  right
  rw [hus]
  have h0 : distOf (dInit g src) src = 0 := (pinv_init g src).src_dist
  rw [h0]
  unfold dInit
  dsimp only
  have : (src, 0) = (fun v => (v, initCost src v)) src := by
    simp [initCost]
  rw [this]
  exact List.mem_map_of_mem _ hsrc

theorem measure_init (g : GraphModel) (src : Nat) :
    dMeasure g (dInit g src) + 1 = dijkstraFuel g src := by
  have hmap : List.map (distOf (dInit g src)) g.nodes = List.map (initCost src) g.nodes := by
    apply List.map_congr_left
    intro v _
    rfl
  have hlen : (dInit g src).heap.length = g.nodes.length := by
    unfold dInit
    dsimp only
    rw [List.length_map]
  unfold dMeasure sumDists dijkstraFuel
  rw [hmap, hlen]

theorem dijkstraFinal_isSome (g : GraphModel) (src tgt : Nat) (hwf : g.WF) :
    (dijkstraFinal g src tgt).isSome := by
  unfold dijkstraFinal
  apply dloop_isSome g src tgt hwf _ _ (pinv_init g src) (hbasic_init g src)
  have := measure_init g src
  omega

/-- Walking predecessor links back from a finite-distance node reaches the
source, never panics, and yields (reversed) a walk no longer than the
recorded distance plus one. -/
theorem walkBack_spec (g : GraphModel) (src : Nat) (s : DState) (hP : PInv g src s) :
    ∀ (fuel : Nat) (v : Nat), distOf s v < u32Max →
      distOf s v + 1 ≤ fuel →
      ∃ l, walkBack s.preds src fuel v = some l ∧ IsWalkFrom g l.reverse src v ∧
        l.length ≤ distOf s v + 1 := by
  intro fuel
  induction fuel with
  | zero =>
    intro v _ hle
    exact absurd hle (by omega)
  | succ fuel ih =>
    intro v hvU hle
    by_cases hvs : v = src
    · subst hvs
      refine ⟨[v], ?_, ?_, ?_⟩
      · unfold walkBack
        rw [if_pos rfl]
      · simpa using isWalkFrom_single g v
      · simp
    · have hpred := hP.fin_pred v hvU hvs
      cases hq : predOf s v with
      | none => rw [hq] at hpred; exact absurd hpred (by simp)
      | some q =>
        obtain ⟨hedge, hlt, _⟩ := hP.pred_some v q hq
        have hqU : distOf s q < u32Max := by omega
        have hqfuel : distOf s q + 1 ≤ fuel := by omega
        obtain ⟨l, hl, hwalk, hlen⟩ := ih q hqU hqfuel
        refine ⟨v :: l, ?_, ?_, ?_⟩
        · unfold walkBack
          rw [if_neg hvs]
          unfold predOf at hq
          rw [hq]
          dsimp only
          rw [hl]
          rfl
        · have := hwalk.snoc hedge
          simpa using this
        · simp
          omega

theorem walk_src_mem {g : GraphModel} (hwf : g.WF) {p : List Nat} {s t : Nat}
    (h : IsWalkFrom g p s t) (hne : s ≠ t) : s ∈ g.nodes := by
  obtain ⟨h1, h2, h3⟩ := h
  cases p with
  | nil => simp at h1
  | cons a q =>
    cases q with
    | nil =>
      simp at h1 h2
      rw [← h1, ← h2] at hne
      exact absurd rfl hne
    | cons b r =>
      simp at h1
      have hedge : b ∈ g.adj a := (List.chain'_cons.mp h3).1
      by_contra hs
      rw [← h1] at hs
      have := GraphModel.adj_nil_of_not_mem g hwf a hs
      rw [this] at hedge
      simp at hedge

/-- Everything a successful `Dijkstra::run` guarantees: the loop finished,
the target was registered with a set predecessor, the result is a walk from
source to target bounded by the recorded distance, and (for a registered
source) no walk between the endpoints is shorter. -/
theorem dijkstraRun_some_spec (g : GraphModel) (src tgt : Nat) (p : List Nat)
    (h : dijkstraRun g src tgt = some p) :
    ∃ s1, dijkstraFinal g src tgt = some s1 ∧ PInv g src s1 ∧
      tgt ∈ g.nodes ∧ (predOf s1 tgt).isSome ∧ tgt ≠ src ∧
      IsWalkFrom g p src tgt ∧ p.length ≤ distOf s1 tgt + 1 ∧ distOf s1 tgt < u32Max ∧
      (src ∈ g.nodes → ∀ q, IsWalkFrom g q src tgt → p.length ≤ q.length) := by
  unfold dijkstraRun at h
  cases hfin : dijkstraFinal g src tgt with
  | none => rw [hfin] at h; exact absurd h (by simp)
  | some s1 =>
    rw [hfin] at h
    dsimp only at h
    by_cases hfound : tgt ∈ g.nodes ∧ (s1.preds tgt).1.isSome
    case neg => rw [if_neg hfound] at h; exact absurd h (by simp)
    case pos =>
    rw [if_pos hfound] at h
    have hloop : dloop g tgt (dijkstraFuel g src) (dInit g src) = some s1 := hfin
    have hspec := dloop_spec g src tgt (dijkstraFuel g src) (dInit g src) s1
      (pinv_init g src) (hbasic_init g src) hloop
    have hP1 : PInv g src s1 := hspec.1
    have hpredsome : (predOf s1 tgt).isSome := hfound.2
    cases hq : predOf s1 tgt with
    | none => rw [hq] at hpredsome; exact absurd hpredsome (by simp)
    | some q0 =>
      have hdtU : distOf s1 tgt < u32Max := (hP1.pred_some tgt q0 hq).2.2
      have htgtsrc : tgt ≠ src := by
        intro hc
        rw [hc, hP1.src_pred] at hq
        exact absurd hq (by simp)
      obtain ⟨l, hwb, hwalk, hlen⟩ := walkBack_spec g src s1 hP1
        ((s1.preds tgt).2 + 1) tgt hdtU (Nat.le_refl _)
      rw [hwb] at h
      simp at h
      refine ⟨s1, rfl, hP1, hfound.1, hpredsome, htgtsrc, ?_, ?_, hdtU, ?_⟩
      · rw [← h]
        exact hwalk
      · rw [← h]
        simp
        exact hlen
      · intro hsrc q hwalkq
        have hfresh : Fresh g (dInit g src) := fresh_init g src hsrc
        by_cases hql : q.length ≤ u32Max
        · have := hspec.2 hfresh q hwalkq hql
          have hplen : p.length ≤ distOf s1 tgt + 1 := by
            rw [← h]
            simp
            exact hlen
          omega
        · have hplen : p.length ≤ distOf s1 tgt + 1 := by
            rw [← h]
            simp
            exact hlen
          omega

/-- C1: for every well-formed graph state and registered endpoints, a path
returned by `Dijkstra::run` (equally `utils::dijkstra`) is a walk from
source to target whose length — hence whose edge count, one less — is
minimal among all directed walks (paths) connecting them. -/
theorem dijkstra_shortest_path (g : GraphModel) (src tgt : Nat) (p : List Nat)
    (_hwf : g.WF) (hs : src ∈ g.nodes) (_ht : tgt ∈ g.nodes)
    (h : dijkstraRun g src tgt = some p) :
    IsWalkFrom g p src tgt ∧ ∀ q, IsWalkFrom g q src tgt → p.length ≤ q.length := by
  obtain ⟨s1, _, _, _, _, _, hwalk, _, _, hmin⟩ := dijkstraRun_some_spec g src tgt p h
  exact ⟨hwalk, hmin hs⟩

/-- Witness for `dijkstra_shortest_path` at Scenario B of the spec:
nodes 1..5, chain edges plus shortcuts 1→3, 3→5. -/
theorem dijkstra_shortest_path_witness :
    (GraphModel.mk [1, 2, 3, 4, 5] [(1, [2, 3]), (2, [3]), (3, [4, 5]), (4, [5])]).WF ∧
    dijkstraRun (GraphModel.mk [1, 2, 3, 4, 5] [(1, [2, 3]), (2, [3]), (3, [4, 5]), (4, [5])])
      1 5 = some [1, 3, 5] ∧
    (IsWalkFrom (GraphModel.mk [1, 2, 3, 4, 5] [(1, [2, 3]), (2, [3]), (3, [4, 5]), (4, [5])])
      [1, 3, 5] 1 5 ∧
      ∀ q, IsWalkFrom (GraphModel.mk [1, 2, 3, 4, 5]
        [(1, [2, 3]), (2, [3]), (3, [4, 5]), (4, [5])]) q 1 5 →
        ([1, 3, 5] : List Nat).length ≤ q.length) :=
  ⟨by decide, by decide,
    dijkstra_shortest_path _ 1 5 [1, 3, 5] (by decide) (by decide) (by decide) (by decide)⟩

/-- A two-node graph with one edge; node 0 is registered. -/
def gSelf : GraphModel := { nodes := [0, 1], adjL := [(0, [1])] }

/-- C6 counterexample: with source = target = 0 both registered, the
source's predecessor slot is never set, and `run` checks only
`None | Some((None, _))` — without the `target ≠ source` exception the
claim describes — so it returns the absent result instead of a path. -/
theorem dijkstra_self_counterexample :
    0 ∈ gSelf.nodes ∧ dijkstraRun gSelf 0 0 = none := by
  constructor
  · decide
  · decide

/-- C6 amended: after the main loop, `run` returns the absent result
exactly when the target's predecessor slot is none (the code has no
`target ≠ source` exception); in particular for source = target it always
returns the absent result. -/
theorem dijkstra_absent_iff_pred_none (g : GraphModel) (src tgt : Nat)
    (hwf : g.WF) (_hs : src ∈ g.nodes) (ht : tgt ∈ g.nodes) :
    ∃ s1, dijkstraFinal g src tgt = some s1 ∧
      (dijkstraRun g src tgt = none ↔ predOf s1 tgt = none) ∧
      (src = tgt → dijkstraRun g src tgt = none) := by
  have hfin := dijkstraFinal_isSome g src tgt hwf
  cases hf : dijkstraFinal g src tgt with
  | none => rw [hf] at hfin; exact absurd hfin (by simp)
  | some s1 =>
    have hloop : dloop g tgt (dijkstraFuel g src) (dInit g src) = some s1 := hf
    have hP1 : PInv g src s1 := (dloop_spec g src tgt (dijkstraFuel g src) (dInit g src) s1
      (pinv_init g src) (hbasic_init g src) hloop).1
    have hiff : dijkstraRun g src tgt = none ↔ predOf s1 tgt = none := by
      constructor
      · intro hnone
        cases hq : predOf s1 tgt with
        | none => rfl
        | some q0 =>
          have hdtU : distOf s1 tgt < u32Max := (hP1.pred_some tgt q0 hq).2.2
          obtain ⟨l, hwb, _, _⟩ := walkBack_spec g src s1 hP1
            ((s1.preds tgt).2 + 1) tgt hdtU (Nat.le_refl _)
          have : dijkstraRun g src tgt = some l.reverse := by
            unfold dijkstraRun
            rw [hf]
            dsimp only
            rw [if_pos ⟨ht, by unfold predOf at hq; rw [hq]; rfl⟩, hwb]
            rfl
          rw [this] at hnone
          exact absurd hnone (by simp)
      · intro hq
        unfold dijkstraRun
        rw [hf]
        dsimp only
        rw [if_neg ?_]
        intro hc
        unfold predOf at hq
        rw [hq] at hc
        exact absurd hc.2 (by simp)
    refine ⟨s1, rfl, hiff, ?_⟩
    intro hst
    apply hiff.mpr
    rw [← hst]
    exact hP1.src_pred

/-- Witness for `dijkstra_absent_iff_pred_none` on a concrete reachable
pair (1 and 3 with a path). -/
theorem dijkstra_absent_iff_pred_none_witness :
    ∃ s1, dijkstraFinal { nodes := [1, 2, 3], adjL := [(1, [2]), (2, [3])] } 1 3 = some s1 ∧
      (dijkstraRun { nodes := [1, 2, 3], adjL := [(1, [2]), (2, [3])] } 1 3 = none ↔
        predOf s1 3 = none) ∧
      ((1 : Nat) = 3 → dijkstraRun { nodes := [1, 2, 3], adjL := [(1, [2]), (2, [3])] } 1 3 = none) :=
  dijkstra_absent_iff_pred_none _ 1 3 (by decide) (by decide) (by decide)

/-- C7: both algorithms return the absent result when the source is not
registered, when the target is not registered, or when no directed walk
from source to target exists. -/
theorem algorithms_absent_when_no_path (g : GraphModel) (src tgt : Nat) (hwf : g.WF)
    (h : src ∉ g.nodes ∨ tgt ∉ g.nodes ∨ ¬ Reachable g src tgt) :
    dfsRun g src tgt = none ∧ dijkstraRun g src tgt = none := by
  constructor
  · cases hd : dfsRun g src tgt with
    | none => rfl
    | some p =>
      obtain ⟨h1, h2, h3, _, _⟩ := dfsRun_some_spec g src tgt p hd
      rcases h with hc | hc | hc
      · exact absurd h1 hc
      · exact absurd h2 hc
      · exact absurd ⟨p, h3⟩ hc
  · cases hd : dijkstraRun g src tgt with
    | none => rfl
    | some p =>
      obtain ⟨s1, _, _, ht, _, hne, hwalk, _, _, _⟩ := dijkstraRun_some_spec g src tgt p hd
      rcases h with hc | hc | hc
      · exact absurd (walk_src_mem hwf hwalk (fun hcc => hne hcc.symm)) hc
      · exact absurd ht hc
      · exact absurd ⟨p, hwalk⟩ hc

/-- Witness for `algorithms_absent_when_no_path`: querying with the
unregistered node 7 as source (Scenario D shape). -/
theorem algorithms_absent_when_no_path_witness :
    dfsRun { nodes := [1, 2], adjL := [(1, [2])] } 7 2 = none ∧
    dijkstraRun { nodes := [1, 2], adjL := [(1, [2])] } 7 2 = none :=
  algorithms_absent_when_no_path _ 7 2 (by decide) (Or.inl (by decide))

/-!
## Overflow-checked Dijkstra (for the `node_dist + 1` safety argument)

`relaxStepC` performs the relaxation with the `u32` debug-overflow check
made explicit: computing `alt = node_dist + 1` panics (modelled `none`)
exactly when `node_dist` is already `u32::MAX`, i.e. when the sum would
exceed `u32::MAX`.  The loop and run are instrumented accordingly; the
outer `none` of `dijkstraRunC` means some executed relaxation overflowed.
-/

def relaxStepC (node : Nat) (s : DState) (a : Nat) : Option DState :=
  if u32Max ≤ (s.preds node).2 then none else some (relaxStep node s a)

def relaxAllC (g : GraphModel) (node : Nat) (s : DState) : Option DState :=
  (g.adj node).foldlM (fun st a => relaxStepC node st a) s

def dloopC (g : GraphModel) (tgt : Nat) : Nat → DState → Option (Option DState)
  | fuel, s =>
    match popMin s.heap with
    | none => some (some s)
    | some ((node, cost), rest) =>
      if cost = u32Max ∨ node = tgt then some (some { s with heap := rest })
      else
        match relaxAllC g node { s with heap := rest } with
        | none => none
        | some s2 =>
          match fuel with
          | 0 => some none
          | fuel + 1 => dloopC g tgt fuel s2

def dijkstraRunC (g : GraphModel) (src tgt : Nat) : Option (Option (List Nat)) :=
  match dloopC g tgt (dijkstraFuel g src) (dInit g src) with
  | none => none
  | some none => some none
  | some (some s1) =>
    some (if tgt ∈ g.nodes ∧ (s1.preds tgt).1.isSome then
      (walkBack s1.preds src ((s1.preds tgt).2 + 1) tgt).map List.reverse
    else none)

theorem relaxAllC_eq (g : GraphModel) (node : Nat) :
    ∀ (l : List Nat) (s : DState), distOf s node < u32Max →
      l.foldlM (fun st a => relaxStepC node st a) s = some (l.foldl (relaxStep node) s) := by
  intro l
  induction l with
  | nil => intro s _; rfl
  | cons a rest ih =>
    intro s hnd
    have hnofire : ¬ u32Max ≤ (s.preds node).2 := by
      unfold distOf at hnd
      omega
    have hstep : relaxStepC node s a = some (relaxStep node s a) := by
      unfold relaxStepC
      rw [if_neg hnofire]
    simp only [List.foldlM]
    rw [hstep]
    have hnd2 : distOf (relaxStep node s a) node < u32Max := by
      rw [relaxStep_dist_node]
      exact hnd
    have := ih (relaxStep node s a) hnd2
    simp only [List.foldlM] at this
    simpa using this

theorem dloopC_eq (g : GraphModel) (src tgt : Nat) :
    ∀ (fuel : Nat) (s : DState), PInv g src s → HBasic s →
      dloopC g tgt fuel s = some (dloop g tgt fuel s) := by
  intro fuel
  induction fuel with
  | zero =>
    intro s hP hB
    unfold dloopC dloop
    cases hpop : popMin s.heap with
    | none => rfl
    | some r =>
      obtain ⟨⟨node, cost⟩, rest⟩ := r
      dsimp only
      by_cases hbr : cost = u32Max ∨ node = tgt
      · rw [if_pos hbr, if_pos hbr]
      · rw [if_neg hbr, if_neg hbr]
        have hcost : cost ≠ u32Max := fun hc => hbr (Or.inl hc)
        have hmemPop : (node, cost) ∈ s.heap := popMin_mem hpop
        have hndU : distOf { s with heap := rest } node < u32Max := by
          have h1 : distOf s node ≤ cost := hB.entry_dist (node, cost) hmemPop
          have h2 : cost ≤ u32Max := hB.entry_le (node, cost) hmemPop
          have h3 : distOf { s with heap := rest } node = distOf s node := rfl
          omega
        have := relaxAllC_eq g node (g.adj node) { s with heap := rest } hndU
        unfold relaxAllC
        rw [this]
  | succ fuel ih =>
    intro s hP hB
    unfold dloopC dloop
    cases hpop : popMin s.heap with
    | none => rfl
    | some r =>
      obtain ⟨⟨node, cost⟩, rest⟩ := r
      dsimp only
      by_cases hbr : cost = u32Max ∨ node = tgt
      · rw [if_pos hbr, if_pos hbr]
      · rw [if_neg hbr, if_neg hbr]
        have hcost : cost ≠ u32Max := fun hc => hbr (Or.inl hc)
        have hmemPop : (node, cost) ∈ s.heap := popMin_mem hpop
        have hndU : distOf { s with heap := rest } node < u32Max := by
          have h1 : distOf s node ≤ cost := hB.entry_dist (node, cost) hmemPop
          have h2 : cost ≤ u32Max := hB.entry_le (node, cost) hmemPop
          have h3 : distOf { s with heap := rest } node = distOf s node := rfl
          omega
        have heq := relaxAllC_eq g node (g.adj node) { s with heap := rest } hndU
        unfold relaxAllC
        rw [heq]
        have hbody := dloop_body_spec g src hP hB hpop hcost
        exact ih (relaxAll g node { s with heap := rest }) hbody.1 hbody.2.1

/-- C10: the relaxation increment `node_dist + 1` never overflows `u32`.
The overflow-instrumented interpreter (which signals `none` exactly when an
executed relaxation reads a `node_dist` of `u32::MAX`, the one case where
`node_dist + 1` exceeds `u32::MAX`) never signals and agrees with the
plain model on every graph and every pair of endpoints: relaxation only
happens for a popped entry of cost below the sentinel, and the recorded
distance of the popped node never exceeds the popped cost. -/
theorem dijkstra_no_overflow (g : GraphModel) (src tgt : Nat) :
    dijkstraRunC g src tgt = some (dijkstraRun g src tgt) := by
  unfold dijkstraRunC dijkstraRun dijkstraFinal
  rw [dloopC_eq g src tgt (dijkstraFuel g src) (dInit g src)
    (pinv_init g src) (hbasic_init g src)]
  cases dloop g tgt (dijkstraFuel g src) (dInit g src) with
  | none => rfl
  | some s1 => rfl

/-!
## Identifier registry (`DoubleMapping`, `mapping.rs`)

`to_index` (a `HashMap<Rc<N>, usize>`) is an association list with distinct
keys; `from_index` is the `Vec<Option<Rc<N>>>` of 1-based id slots.  In
`get_by_id`, a Rust id of 0 underflows `id - 1` to `usize::MAX` and the
vector lookup yields none, which the model states explicitly.
-/

structure DoubleMapping where
  to_index : List (Nat × Nat)
  from_index : List (Option Nat)
  autodecrement : Bool
deriving Repr, DecidableEq

def DoubleMapping.get_by_obj (m : DoubleMapping) (obj : Nat) : Option Nat :=
  assocFind obj m.to_index

def DoubleMapping.get_by_id (m : DoubleMapping) (id : Nat) : Option Nat :=
  if id = 0 then none else (m.from_index.get? (id - 1)).join

def DoubleMapping.contains_id (m : DoubleMapping) (id : Nat) : Bool :=
  (m.get_by_id id).isSome

def DoubleMapping.contains_obj (m : DoubleMapping) (obj : Nat) : Bool :=
  (m.get_by_obj obj).isSome

/-- `insert`: refuse an already-registered object; otherwise allocate
`from_index.len() + 1` as id. -/
def DoubleMapping.insert (m : DoubleMapping) (obj : Nat) : Option Nat × DoubleMapping :=
  match m.get_by_obj obj with
  | some _ => (none, m)
  | none =>
    let id := m.from_index.length + 1
    (some id,
      { m with to_index := (obj, id) :: m.to_index
               from_index := m.from_index ++ [some obj] })

/-- `remove`: take the slot, drop the reverse entry, and under
`autodecrement` physically delete the slot and decrement every id above
it (the Rust comparison `*v > id` uses the shadowed 0-based `id`). -/
def DoubleMapping.remove (m : DoubleMapping) (id : Nat) : Option Nat × DoubleMapping :=
  if m.contains_id id then
    match m.from_index.get? (id - 1) with
    | some (some obj) =>
      if m.autodecrement then
        (some obj,
          { m with to_index := (m.to_index.filter (fun p => p.1 ≠ obj)).map
                     (fun p => if id - 1 < p.2 then (p.1, p.2 - 1) else p)
                   from_index := (m.from_index.set (id - 1) none).eraseIdx (id - 1) })
      else
        (some obj, { m with to_index := m.to_index.filter (fun p => p.1 ≠ obj)
                            from_index := m.from_index.set (id - 1) none })
    | _ => (none, m)
  else (none, m)

/-- Registry invariant: reverse-index keys are distinct and the two maps
are mutually inverse. -/
def DoubleMapping.WF (m : DoubleMapping) : Prop :=
  (m.to_index.map Prod.fst).Nodup ∧
  (∀ p ∈ m.to_index, 1 ≤ p.2 ∧ m.from_index.get? (p.2 - 1) = some (some p.1)) ∧
  (∀ q ∈ m.from_index.enum, ∀ obj, q.2 = some obj → (obj, q.1 + 1) ∈ m.to_index)

instance (m : DoubleMapping) : Decidable m.WF := by
  unfold DoubleMapping.WF; infer_instance

theorem get?_eraseIdx_lt {α : Type} :
    ∀ (l : List α) (i n : Nat), n < i → (l.eraseIdx i).get? n = l.get? n := by
  intro l
  induction l with
  | nil => intro i n _; simp [List.eraseIdx]
  | cons a t ih =>
    intro i n hn
    cases i with
    | zero => exact absurd hn (by omega)
    | succ i2 =>
      cases n with
      | zero => rfl
      | succ n2 =>
        simp only [List.eraseIdx, List.get?]
        exact ih i2 n2 (by omega)

theorem get?_eraseIdx_ge {α : Type} :
    ∀ (l : List α) (i n : Nat), i ≤ n → (l.eraseIdx i).get? n = l.get? (n + 1) := by
  intro l
  induction l with
  | nil => intro i n _; simp [List.eraseIdx]
  | cons a t ih =>
    intro i n hn
    cases i with
    | zero => rfl
    | succ i2 =>
      cases n with
      | zero => exact absurd hn (by omega)
      | succ n2 =>
        simp only [List.eraseIdx, List.get?]
        exact ih i2 n2 (by omega)

theorem get?_set_ne {α : Type} :
    ∀ (l : List α) (i : Nat) (x : α) (n : Nat), n ≠ i → (l.set i x).get? n = l.get? n := by
  intro l
  induction l with
  | nil => intro i x n _; simp
  | cons a t ih =>
    intro i x n hn
    cases i with
    | zero =>
      cases n with
      | zero => exact absurd rfl hn
      | succ n2 => rfl
    | succ i2 =>
      cases n with
      | zero => rfl
      | succ n2 =>
        simp only [List.set, List.get?]
        exact ih i2 x n2 (by omega)

theorem assocFind_of_mem_nodup {β : Type} {l : List (Nat × β)} {k : Nat} {v : β}
    (hnd : (l.map Prod.fst).Nodup) (hmem : (k, v) ∈ l) : assocFind k l = some v := by
  induction l with
  | nil => simp at hmem
  | cons p t ih =>
    rcases List.mem_cons.mp hmem with h1 | h1
    · rw [← h1]
      unfold assocFind
      rw [if_pos rfl]
    · have hk : p.1 ≠ k := by
        intro hc
        have : k ∈ t.map Prod.fst := by
          rw [← show (k, v).1 = k from rfl]
          exact List.mem_map_of_mem _ h1
        rw [List.map_cons] at hnd
        rw [hc] at hnd
        exact (List.nodup_cons.mp hnd).1 this
      unfold assocFind
      rw [if_neg hk]
      exact ih (by rw [List.map_cons] at hnd; exact (List.nodup_cons.mp hnd).2) h1

theorem get_by_id_slot {m : DoubleMapping} {j : Nat} {o : Nat}
    (h : m.get_by_id j = some o) :
    j ≠ 0 ∧ m.from_index.get? (j - 1) = some (some o) := by
  unfold DoubleMapping.get_by_id at h
  by_cases hj : j = 0
  · rw [if_pos hj] at h
    exact absurd h (by simp)
  · rw [if_neg hj] at h
    refine ⟨hj, ?_⟩
    cases hq : m.from_index.get? (j - 1) with
    | none => rw [hq] at h; simp [Option.join] at h
    | some r =>
      rw [hq] at h
      cases r with
      | none => simp [Option.join] at h
      | some o2 =>
        simp [Option.join] at h
        rw [h]

theorem wf_value_unique {m : DoubleMapping} (hwf : m.WF) {a b1 b2 : Nat}
    (h1 : (a, b1) ∈ m.to_index) (h2 : (a, b2) ∈ m.to_index) : b1 = b2 := by
  have e1 := assocFind_of_mem_nodup hwf.1 h1
  have e2 := assocFind_of_mem_nodup hwf.1 h2
  rw [e1] at e2
  injection e2

theorem wf_mem_of_slot {m : DoubleMapping} (hwf : m.WF) {j o : Nat} (hj : j ≠ 0)
    (hslot : m.from_index.get? (j - 1) = some (some o)) : (o, j) ∈ m.to_index := by
  have henum : (j - 1, some o) ∈ m.from_index.enum := by
    rw [List.mk_mem_enum_iff_get?]
    exact hslot
  have := hwf.2.2 (j - 1, some o) henum o rfl
  have hj1 : j - 1 + 1 = j := by omega
  rw [hj1] at this
  exact this

/-- C9: with the compacting (`autodecrement`) discipline, `remove(k)` on a
live id `k` returns the object registered at `k`; afterwards every object
whose id was `j > k` is observed (via both `get_by_id` and `get_by_obj`)
at id `j - 1`, and every object whose id was `j < k` keeps id `j`. -/
theorem compacting_remove_shifts_ids (m : DoubleMapping) (k obj : Nat)
    (hwf : m.WF) (hauto : m.autodecrement = true)
    (hlive : m.get_by_id k = some obj) :
    (m.remove k).1 = some obj ∧
    (∀ j o2, m.get_by_id j = some o2 → j < k →
      (m.remove k).2.get_by_id j = some o2 ∧ (m.remove k).2.get_by_obj o2 = some j) ∧
    (∀ j o2, m.get_by_id j = some o2 → k < j →
      (m.remove k).2.get_by_id (j - 1) = some o2 ∧
        (m.remove k).2.get_by_obj o2 = some (j - 1)) := by
  obtain ⟨hk0, hslot⟩ := get_by_id_slot hlive
  have hcont : m.contains_id k = true := by
    unfold DoubleMapping.contains_id
    rw [hlive]
    rfl
  have hrem : m.remove k = (some obj,
      { m with to_index := (m.to_index.filter (fun p => p.1 ≠ obj)).map
                 (fun p => if k - 1 < p.2 then (p.1, p.2 - 1) else p)
               from_index := (m.from_index.set (k - 1) none).eraseIdx (k - 1) }) := by
    unfold DoubleMapping.remove
    rw [if_pos hcont, hslot]
    dsimp only
    rw [if_pos hauto]
  have hkeys : ((m.remove k).2.to_index.map Prod.fst).Nodup := by
    rw [hrem]
    dsimp only
    rw [List.map_map]
    have hcomp : (Prod.fst ∘ fun p : Nat × Nat => if k - 1 < p.2 then (p.1, p.2 - 1) else p) =
        Prod.fst := by
      funext p
      by_cases hp : k - 1 < p.2
      · simp [hp]
      · simp [hp]
    rw [hcomp]
    have hsub : List.Sublist ((m.to_index.filter (fun p => p.1 ≠ obj)).map Prod.fst)
        (m.to_index.map Prod.fst) := (List.filter_sublist _).map _
    exact hwf.1.sublist hsub
  have hmemk : (obj, k) ∈ m.to_index := wf_mem_of_slot hwf hk0 hslot
  have hobj_mem : ∀ j o2, m.get_by_id j = some o2 → j ≠ k →
      (o2, j) ∈ m.to_index ∧ o2 ≠ obj := by
    intro j o2 hj hjk
    obtain ⟨hj0, hslotj⟩ := get_by_id_slot hj
    have hmemj : (o2, j) ∈ m.to_index := wf_mem_of_slot hwf hj0 hslotj
    refine ⟨hmemj, ?_⟩
    intro hc
    rw [hc] at hmemj
    exact hjk (wf_value_unique hwf hmemj hmemk)
  refine ⟨by rw [hrem], ?_, ?_⟩
  · intro j o2 hj hjk
    obtain ⟨hj0, hslotj⟩ := get_by_id_slot hj
    have hne : j ≠ k := by omega
    obtain ⟨hmemj, hne2⟩ := hobj_mem j o2 hj hne
    constructor
    · unfold DoubleMapping.get_by_id
      rw [if_neg hj0, hrem]
      dsimp only
      rw [get?_eraseIdx_lt _ _ _ (by omega), get?_set_ne _ _ _ _ (by omega), hslotj]
      rfl
    · unfold DoubleMapping.get_by_obj
      rw [hrem]
      dsimp only
      apply assocFind_of_mem_nodup
      · have := hkeys
        rw [hrem] at this
        exact this
      · have hfil : (o2, j) ∈ m.to_index.filter (fun p => p.1 ≠ obj) := by
          rw [List.mem_filter]
          exact ⟨hmemj, by simpa using hne2⟩
        have himg := List.mem_map_of_mem
          (fun p : Nat × Nat => if k - 1 < p.2 then (p.1, p.2 - 1) else p) hfil
        have hiff : (fun p : Nat × Nat => if k - 1 < p.2 then (p.1, p.2 - 1) else p) (o2, j) =
            (o2, j) := by
          dsimp only
          rw [if_neg (by omega : ¬ k - 1 < j)]
        rw [hiff] at himg
        exact himg
  · intro j o2 hj hjk
    obtain ⟨hj0, hslotj⟩ := get_by_id_slot hj
    have hne : j ≠ k := by omega
    obtain ⟨hmemj, hne2⟩ := hobj_mem j o2 hj hne
    constructor
    · unfold DoubleMapping.get_by_id
      rw [if_neg (by omega : ¬ j - 1 = 0), hrem]
      dsimp only
      have h1 : j - 1 - 1 + 1 = j - 1 := by omega
      rw [get?_eraseIdx_ge _ _ _ (by omega), h1, get?_set_ne _ _ _ _ (by omega), hslotj]
      rfl
    · unfold DoubleMapping.get_by_obj
      rw [hrem]
      dsimp only
      apply assocFind_of_mem_nodup
      · have := hkeys
        rw [hrem] at this
        exact this
      · have hfil : (o2, j) ∈ m.to_index.filter (fun p => p.1 ≠ obj) := by
          rw [List.mem_filter]
          exact ⟨hmemj, by simpa using hne2⟩
        have himg := List.mem_map_of_mem
          (fun p : Nat × Nat => if k - 1 < p.2 then (p.1, p.2 - 1) else p) hfil
        have hiff : (fun p : Nat × Nat => if k - 1 < p.2 then (p.1, p.2 - 1) else p) (o2, j) =
            (o2, j - 1) := by
          dsimp only
          rw [if_pos (by omega : k - 1 < j)]
        rw [hiff] at himg
        exact himg

/-- Witness for `compacting_remove_shifts_ids`: a compacting registry with
objects 10, 20, 30 at ids 1, 2, 3; removing id 2. -/
theorem compacting_remove_shifts_ids_witness :
    (DoubleMapping.mk [(30, 3), (20, 2), (10, 1)] [some 10, some 20, some 30] true).WF ∧
    ((DoubleMapping.mk [(30, 3), (20, 2), (10, 1)] [some 10, some 20, some 30] true).remove
      2).1 = some 20 ∧
    ((DoubleMapping.mk [(30, 3), (20, 2), (10, 1)] [some 10, some 20, some 30] true).remove
      2).2.get_by_id 1 = some 10 ∧
    ((DoubleMapping.mk [(30, 3), (20, 2), (10, 1)] [some 10, some 20, some 30] true).remove
      2).2.get_by_id 2 = some 30 ∧
    ((DoubleMapping.mk [(30, 3), (20, 2), (10, 1)] [some 10, some 20, some 30] true).remove
      2).2.get_by_obj 30 = some 2 := by
  refine ⟨by decide, ?_, ?_, ?_, ?_⟩
  · exact (compacting_remove_shifts_ids _ 2 20 (by decide) (by decide) (by decide)).1
  · exact ((compacting_remove_shifts_ids _ 2 20 (by decide) (by decide)
      (by decide)).2.1 1 10 (by decide) (by decide)).1
  · exact ((compacting_remove_shifts_ids _ 2 20 (by decide) (by decide)
      (by decide)).2.2 3 30 (by decide) (by decide)).1
  · exact ((compacting_remove_shifts_ids _ 2 20 (by decide) (by decide)
      (by decide)).2.2 3 30 (by decide) (by decide)).2

/-!
## Storage backends

Shared association-list helpers modelling `HashMap` update/removal (the
maps involved all have distinct keys in reachable states).
-/

/-- `HashMap::insert`: replace the value of an existing key, else add. -/
def assocInsert {β : Type} (k : Nat) (v : β) : List (Nat × β) → List (Nat × β)
  | [] => [(k, v)]
  | p :: ps => if p.1 = k then (k, v) :: ps else p :: assocInsert k v ps

/-- In-place update of the (first) entry of a key, as `get_mut` + mutation;
missing keys are untouched (the source `unwrap`s, and the key is present in
every reachable call). -/
def assocUpdate {β : Type} (k : Nat) (f2 : β → β) : List (Nat × β) → List (Nat × β)
  | [] => []
  | p :: ps => if p.1 = k then (p.1, f2 p.2) :: ps else p :: assocUpdate k f2 ps

/-- All directed id pairs present in an adjacency association list. -/
def edgePairs (l : List (Nat × List Nat)) : List (Nat × Nat) :=
  match l with
  | [] => []
  | p :: ps => p.2.map (fun x => (p.1, x)) ++ edgePairs ps

/-- How many adjacency sets contain `k` (each set holds at most one copy). -/
def removeInCount (k : Nat) (l : List (Nat × List Nat)) : Nat :=
  (l.map (fun p => if k ∈ p.2 then 1 else 0)).sum

/-- Delete `k` from every adjacency set. -/
def stripId (k : Nat) (l : List (Nat × List Nat)) : List (Nat × List Nat) :=
  l.map (fun p => (p.1, p.2.filter (fun x => x ≠ k)))

/-- Delete the first occurrence of `k` from every adjacency vector
(`remove_from_vec` of the `AdjMatrixGraph` source). -/
def stripFirst (k : Nat) (l : List (Nat × List Nat)) : List (Nat × List Nat) :=
  l.map (fun p => (p.1, p.2.erase k))

/-!
### `AdjListGraph` (`impls/adj_list.rs`)

Node objects are `Nat`; the registry `DoubleMapping` is created with
`autodecrement = false`; `edges` maps each live id to its out-neighbor id
set (a `HashSet`, modelled as a duplicate-free list).
-/

structure AdjListGraph where
  identifiers : DoubleMapping
  edges : List (Nat × List Nat)
  edge_count : Nat
deriving Repr, DecidableEq

def AdjListGraph.new : AdjListGraph :=
  { identifiers := DoubleMapping.mk [] [] false, edges := [], edge_count := 0 }

def AdjListGraph.has_node (g : AdjListGraph) (n : Nat) : Bool :=
  g.identifiers.contains_obj n

def AdjListGraph.has_edge (g : AdjListGraph) (f t : Nat) : Bool :=
  match g.identifiers.get_by_obj f, g.identifiers.get_by_obj t with
  | some fid, some tid =>
    match assocFind fid g.edges with
    | some v => decide (tid ∈ v)
    | none => false
  | _, _ => false

def AdjListGraph.find_or_add (g : AdjListGraph) (n : Nat) : Nat × AdjListGraph :=
  match g.identifiers.get_by_obj n with
  | some id => (id, g)
  | none =>
    match g.identifiers.insert n with
    | (some id, m2) =>
      (id, { g with identifiers := m2, edges := (id, []) :: g.edges })
    | (none, _) => (0, g)

def AdjListGraph.add_node (g : AdjListGraph) (n : Nat) : AdjListGraph :=
  (g.find_or_add n).2

def AdjListGraph.add_edge (g : AdjListGraph) (f t : Nat) : AdjListGraph :=
  if g.has_edge f t then g
  else
    match g.find_or_add f with
    | (fr, g1) =>
      match g1.find_or_add t with
      | (tr, g2) =>
        { g2 with
          edges := assocUpdate fr (fun v => if tr ∈ v then v else tr :: v) g2.edges
          edge_count := g2.edge_count + 1 }

def AdjListGraph.remove_node (g : AdjListGraph) (n : Nat) : AdjListGraph :=
  if g.has_node n then
    match g.identifiers.get_by_obj n with
    | some id =>
      match assocFind id g.edges with
      | some v =>
        { identifiers := (g.identifiers.remove id).2
          edges := stripId id (g.edges.filter (fun p => p.1 ≠ id))
          edge_count := g.edge_count - v.length -
            removeInCount id (g.edges.filter (fun p => p.1 ≠ id)) }
      | none =>
        { identifiers := (g.identifiers.remove id).2
          edges := stripId id g.edges
          edge_count := g.edge_count - removeInCount id g.edges }
    | none => g
  else g

def AdjListGraph.node_count (g : AdjListGraph) : Nat := g.edges.length

/-- `iter_adj`: the outer `none` models the panic of
`get_by_obj(n).unwrap()` on an unregistered node; the inner option is the
function's returned `Option`; elements are the per-element
`get_by_id(..).unwrap()` results (always present in well-formed states). -/
def AdjListGraph.iter_adj (g : AdjListGraph) (n : Nat) :
    Option (Option (List (Option Nat))) :=
  match g.identifiers.get_by_obj n with
  | none => none
  | some id =>
    match assocFind id g.edges with
    | none => some none
    | some v => some (some (v.map (fun x => g.identifiers.get_by_id x)))

example : AdjListGraph.new.add_node 1 =
    { identifiers := DoubleMapping.mk [(1, 1)] [some 1] false
      edges := [(1, [])], edge_count := 0 } := by decide
example : (AdjListGraph.new.add_node 1).iter_adj 2 = none := by decide
example : (AdjListGraph.new.add_node 1).iter_adj 1 = some (some []) := by decide
example : (AdjListGraph.new.add_edge 1 2).edge_count = 1 := by decide
example : (AdjListGraph.new.add_edge 1 2).has_edge 1 2 = true := by decide
example : ((AdjListGraph.new.add_edge 1 2).remove_node 1).edge_count = 0 := by decide

/-!
### `IncMatrixGraph` (`impls/inc_matrix.rs`)

The registry is a `DoubleMapping` with `autodecrement = true`; `matrix`
is the boolean adjacency matrix in 0-based id order. Operations whose
source can panic return `Option` (`none` = panic); indexing that the
source performs on in-range indices (guaranteed in well-formed states)
is modelled with `getD`/`set`/`eraseIdx` defaults.
-/

/-- Number of `true` cells in a row. -/
def countTrue (r : List Bool) : Nat := (r.filter (fun b => b)).length

/-- Number of rows of `mtx` whose column `j` holds `true`. -/
def matColCount (j : Nat) (mtx : List (List Bool)) : Nat :=
  (mtx.map (fun r => if r.getD j false then 1 else 0)).sum

structure IncMatrixGraph where
  identifiers : DoubleMapping
  edge_count : Nat
  matrix : List (List Bool)
deriving Repr, DecidableEq

def IncMatrixGraph.new : IncMatrixGraph :=
  { identifiers := DoubleMapping.mk [] [] true, edge_count := 0, matrix := [] }

def IncMatrixGraph.has_node (g : IncMatrixGraph) (n : Nat) : Bool :=
  g.identifiers.contains_obj n

def IncMatrixGraph.has_edge (g : IncMatrixGraph) (f t : Nat) : Bool :=
  match g.identifiers.get_by_obj f, g.identifiers.get_by_obj t with
  | some fi, some ti => (g.matrix.getD (fi - 1) []).getD (ti - 1) false
  | _, _ => false

/-- `add_node`: `insert(n).unwrap()` panics (`none`) on an already
registered object; otherwise a row of the old length is pushed and every
row (including the new one) gets one more `false` column. -/
def IncMatrixGraph.add_node (g : IncMatrixGraph) (n : Nat) : Option IncMatrixGraph :=
  match g.identifiers.insert n with
  | (none, _) => none
  | (some _, m2) =>
    some { identifiers := m2
           edge_count := g.edge_count
           matrix := (g.matrix ++ [List.replicate g.matrix.length false]).map
             (fun r => r ++ [false]) }

def IncMatrixGraph.find_or_add (g : IncMatrixGraph) (n : Nat) :
    Option (Nat × IncMatrixGraph) :=
  match g.identifiers.get_by_obj n with
  | some id => some (id - 1, g)
  | none =>
    match g.add_node n with
    | some g2 => some (g2.matrix.length - 1, g2)
    | none => none

def IncMatrixGraph.add_edge (g : IncMatrixGraph) (f t : Nat) : Option IncMatrixGraph :=
  if g.has_edge f t then some g
  else
    match g.find_or_add f with
    | none => none
    | some (i_f, g1) =>
      match g1.find_or_add t with
      | none => none
      | some (i_t, g2) =>
        some { g2 with
               matrix := g2.matrix.set i_f ((g2.matrix.getD i_f []).set i_t true)
               edge_count := g2.edge_count + 1 }

/-- `remove_node`: drop row `i-1`, subtract its `true` count, then for each
remaining row subtract 1 if column `i-1` holds `true` and drop that column. -/
def IncMatrixGraph.remove_node (g : IncMatrixGraph) (n : Nat) : IncMatrixGraph :=
  match g.identifiers.get_by_obj n with
  | some i =>
    { identifiers := (g.identifiers.remove i).2
      edge_count := g.edge_count - countTrue (g.matrix.getD (i - 1) []) -
        matColCount (i - 1) (g.matrix.eraseIdx (i - 1))
      matrix := (g.matrix.eraseIdx (i - 1)).map (fun r => r.eraseIdx (i - 1)) }
  | none => g

def IncMatrixGraph.node_count (g : IncMatrixGraph) : Nat := g.matrix.length

/-- `iter_adj`, translated faithfully: for each `true` column `j` of row
`i-1` it yields `get_by_id(j).unwrap()` — `j`, not `j + 1` — so every
neighbor lookup is off by one (`none` elements are unwrap panics, column
0 in particular). -/
def IncMatrixGraph.iter_adj (g : IncMatrixGraph) (n : Nat) :
    Option (List (Option Nat)) :=
  match g.identifiers.get_by_obj n with
  | some i =>
    some ((g.matrix.getD (i - 1) []).enum.filterMap
      (fun q => if q.2 then some (g.identifiers.get_by_id q.1) else none))
  | none => none

/-- The `GraphModel` a traversal over this backend actually sees:
`iter_nodes` is the registry's key set and the neighbor sequence of `n`
is what `iter_adj` yields (on runs where no element panics). -/
def IncMatrixGraph.toModel (g : IncMatrixGraph) : GraphModel :=
  { nodes := g.identifiers.to_index.map Prod.fst
    adjL := (g.identifiers.to_index.map Prod.fst).map
      (fun n => (n, (match g.iter_adj n with
                     | some l => l.reduceOption
                     | none => []))) }

def gIncT : Option IncMatrixGraph :=
  ((IncMatrixGraph.new.add_edge 1 2).bind
    (fun g => g.add_edge 2 3)).bind (fun g => g.add_edge 3 1)

example : gIncT.map IncMatrixGraph.node_count = some 3 := by decide
example : gIncT.map IncMatrixGraph.edge_count = some 3 := by decide
example : gIncT.map (fun g => (g.remove_node 1).node_count) = some 2 := by decide
example : gIncT.map (fun g => (g.remove_node 1).edge_count) = some 1 := by decide
example : gIncT.map (fun g => ((g.remove_node 1).remove_node 2).edge_count) = some 0 := by decide
example : gIncT.map (fun g => g.has_edge 1 2) = some true := by decide

/-!
### `AdjMatrixGraph` (`src/graph.rs`)

Nodes are stored in an insertion-ordered vector (duplicates possible —
`add_node` never checks membership) and `edges` is a `HashMap` keyed by
the node value, each holding the ordered out-neighbor vector.
-/

structure AdjMatrixGraph where
  nodes : List Nat
  edges : List (Nat × List Nat)
  edge_count : Nat
deriving Repr, DecidableEq

def AdjMatrixGraph.new : AdjMatrixGraph :=
  { nodes := [], edges := [], edge_count := 0 }

def AdjMatrixGraph.has_node (g : AdjMatrixGraph) (n : Nat) : Bool :=
  decide (n ∈ g.nodes)

def AdjMatrixGraph.has_edge (g : AdjMatrixGraph) (f t : Nat) : Bool :=
  match assocFind f g.edges with
  | some v => decide (t ∈ v)
  | none => false

/-- `add_node` unconditionally pushes the node and `edges.insert`s a fresh
empty vector, replacing any existing adjacency of an equal node. -/
def AdjMatrixGraph.add_node (g : AdjMatrixGraph) (n : Nat) : AdjMatrixGraph :=
  { nodes := g.nodes ++ [n]
    edges := assocInsert n [] g.edges
    edge_count := g.edge_count }

def AdjMatrixGraph.find_or_add (g : AdjMatrixGraph) (n : Nat) : AdjMatrixGraph :=
  if g.has_node n then g else g.add_node n

def AdjMatrixGraph.addEdgeAux (g2 : AdjMatrixGraph) (f t : Nat) : AdjMatrixGraph :=
  { g2 with edges := assocUpdate f (fun v => v ++ [t]) g2.edges
            edge_count := g2.edge_count + 1 }

def AdjMatrixGraph.add_edge (g : AdjMatrixGraph) (f t : Nat) : AdjMatrixGraph :=
  if g.has_edge f t then g
  else ((g.find_or_add f).find_or_add t).addEdgeAux f t

/-- `remove_node`: drop the first matching node, drop its adjacency entry
(subtracting its length), then erase the first occurrence of `n` from every
remaining vector, subtracting 1 per vector that contained it. -/
def AdjMatrixGraph.remove_node (g : AdjMatrixGraph) (n : Nat) : AdjMatrixGraph :=
  if g.has_node n then
    match assocFind n g.edges with
    | some v =>
      { nodes := g.nodes.erase n
        edges := stripFirst n (g.edges.filter (fun p => p.1 ≠ n))
        edge_count := g.edge_count - v.length -
          removeInCount n (g.edges.filter (fun p => p.1 ≠ n)) }
    | none =>
      { nodes := g.nodes.erase n
        edges := stripFirst n g.edges
        edge_count := g.edge_count - removeInCount n g.edges }
  else g

def AdjMatrixGraph.node_count (g : AdjMatrixGraph) : Nat := g.nodes.length

def gAdjMT : AdjMatrixGraph :=
  ((AdjMatrixGraph.new.add_edge 1 2).add_edge 2 3).add_edge 3 1

example : gAdjMT.node_count = 3 := by decide
example : gAdjMT.edge_count = 3 := by decide
example : (gAdjMT.remove_node 1).node_count = 2 := by decide
example : (gAdjMT.remove_node 1).edge_count = 1 := by decide
example : ((gAdjMT.remove_node 1).remove_node 2).edge_count = 0 := by decide
example : (AdjMatrixGraph.new.add_node 1).node_count = 1 := by decide
example : ((AdjMatrixGraph.new.add_node 1).add_node 1).node_count = 2 := by decide

/-!
## Claims C2–C5 on the backends
-/

def gC3 : AdjListGraph := AdjListGraph.new.add_node 1

/-- C3: refuted for the `AdjListGraph` backend. `iter_adj` begins with
`self.identifiers.get_by_obj(n).unwrap()`, so on an unregistered node it
panics (outer `none` in the model) instead of returning the absent result;
a registered node does get a present (here empty) sequence. -/
theorem iter_adj_unregistered_panics :
    gC3.has_node 2 = false ∧ gC3.iter_adj 2 = none ∧
    gC3.has_node 1 = true ∧ gC3.iter_adj 1 = some (some []) := by decide

def gC4 : Option IncMatrixGraph :=
  ((IncMatrixGraph.new.add_node 10).bind (fun g => g.add_node 20)).bind
    (fun g => g.add_edge 10 20)

def gC4b : Option IncMatrixGraph :=
  ((IncMatrixGraph.new.add_node 10).bind (fun g => g.add_node 20)).bind
    (fun g => g.add_edge 20 10)

/-- C4: refuted for the `IncMatrixGraph` backend. With objects 10, 20
(ids 1, 2) and the single edge 10 → 20, `iter_adj(10)` yields object 10 —
`get_by_id(j).unwrap()` uses the 0-based column index `j` where id
`j + 1` is meant — although `has_edge(10, 10)` is false, and it never
yields 20 although `has_edge(10, 20)` is true. With the single edge
20 → 10 the true column is 0 and `get_by_id(0)` is absent, so the element
unwrap panics (the `none` element). -/
theorem iter_adj_mismatches_has_edge :
    gC4.map (fun g => g.has_node 10) = some true ∧
    gC4.map (fun g => g.has_edge 10 20) = some true ∧
    gC4.map (fun g => g.has_edge 10 10) = some false ∧
    gC4.map (fun g => g.iter_adj 10) = some (some [some 10]) ∧
    gC4b.map (fun g => g.has_edge 20 10) = some true ∧
    gC4b.map (fun g => g.iter_adj 20) = some (some [none]) := by decide

def gC2 : Option IncMatrixGraph :=
  (((IncMatrixGraph.new.add_node 10).bind (fun g => g.add_node 20)).bind
    (fun g => g.add_node 30)).bind (fun g => g.add_edge 10 30)

/-- C2: refuted over the `IncMatrixGraph` backend. With objects 10, 20, 30
(ids 1, 2, 3) and the single edge 10 → 30, `iter_adj(10)` yields object 20
(the off-by-one of C4), so DFS run(10, 20) returns the path [10, 20] whose
only consecutive pair (10, 20) is not a present edge of the graph it ran
over. (`toModel` is exactly the node set / neighbor sequences the traversal
receives from `iter_nodes` / `iter_adj`.) -/
theorem dfs_path_uses_absent_edge :
    gC2.map (fun g => dfsRun g.toModel 10 20) = some (some [10, 20]) ∧
    gC2.map (fun g => g.has_edge 10 20) = some false ∧
    gC2.map (fun g => g.has_edge 10 30) = some true ∧
    gC2.map (fun g => g.has_node 10) = some true ∧
    gC2.map (fun g => g.has_node 20) = some true := by decide

def gC5inc : Option IncMatrixGraph := IncMatrixGraph.new.add_node 5

/-- C5 counterexample: `IncMatrixGraph::add_node` on an already registered
node panics (`insert(n).unwrap()` of a refused insert), and
`AdjMatrixGraph::add_node` registers a second copy (node_count 2 after
adding 7 twice) — neither backend is a no-op as claimed. -/
theorem add_node_duplicate_counterexample :
    gC5inc.map (fun g => g.has_node 5) = some true ∧
    gC5inc.bind (fun g => g.add_node 5) = none ∧
    ((AdjMatrixGraph.new.add_node 7).add_node 7).node_count = 2 := by decide

theorem assocFind_assocInsert_self {β : Type} (k : Nat) (v : β)
    (l : List (Nat × β)) : assocFind k (assocInsert k v l) = some v := by
  induction l with
  | nil => simp [assocInsert, assocFind]
  | cons p ps ih =>
    by_cases h : p.1 = k
    · simp [assocInsert, h, assocFind]
    · simp [assocInsert, h, assocFind, ih]

/-- C5 amended: only `AdjListGraph` is idempotent. On an already registered
node, `AdjListGraph::add_node` returns the state unchanged (hence every
count and query is unchanged); `IncMatrixGraph::add_node` panics; and
`AdjMatrixGraph::add_node` increments `node_count`, keeps `edge_count`,
and resets the node's adjacency entry to the empty vector. -/
theorem add_node_existing_behavior :
    (∀ (g : AdjListGraph) (n : Nat), g.has_node n = true →
      g.add_node n = g) ∧
    (∀ (g : IncMatrixGraph) (n : Nat), g.has_node n = true →
      g.add_node n = none) ∧
    (∀ (g : AdjMatrixGraph) (n : Nat), g.has_node n = true →
      (g.add_node n).node_count = g.node_count + 1 ∧
      (g.add_node n).edge_count = g.edge_count ∧
      assocFind n (g.add_node n).edges = some []) := by
  refine ⟨fun g n h => ?_, fun g n h => ?_, fun g n h => ?_⟩
  · unfold AdjListGraph.has_node DoubleMapping.contains_obj at h
    unfold AdjListGraph.add_node AdjListGraph.find_or_add
    cases hq : g.identifiers.get_by_obj n with
    | none => rw [hq] at h; simp at h
    | some id => rfl
  · unfold IncMatrixGraph.has_node DoubleMapping.contains_obj at h
    unfold IncMatrixGraph.add_node DoubleMapping.insert
    cases hq : g.identifiers.get_by_obj n with
    | none => rw [hq] at h; simp at h
    | some id => rfl
  · refine ⟨?_, rfl, ?_⟩
    · unfold AdjMatrixGraph.add_node AdjMatrixGraph.node_count
      simp
    · unfold AdjMatrixGraph.add_node
      exact assocFind_assocInsert_self n [] g.edges

theorem add_node_existing_behavior_witness :
    (AdjListGraph.new.add_node 3).add_node 3 = AdjListGraph.new.add_node 3 ∧
    (IncMatrixGraph.mk (DoubleMapping.mk [(5, 1)] [some 5] true) 0
      [[false]]).add_node 5 = none ∧
    ((AdjMatrixGraph.new.add_node 7).add_node 7).node_count =
      (AdjMatrixGraph.new.add_node 7).node_count + 1 :=
  ⟨add_node_existing_behavior.1 _ 3 (by decide),
   add_node_existing_behavior.2.1 _ 5 (by decide),
   (add_node_existing_behavior.2.2 _ 7 (by decide)).1⟩

/-!
## C8: remove_node counting

Helper lemmas about association-list edge stores and the boolean matrix.
-/

theorem mem_keys_assocFind {β : Type} {k : Nat} {l : List (Nat × β)}
    (h : k ∈ l.map Prod.fst) : ∃ v, assocFind k l = some v := by
  induction l with
  | nil => simp at h
  | cons p ps ih =>
    by_cases hp : p.1 = k
    · exact ⟨p.2, by simp [assocFind, hp]⟩
    · have hk : k ∈ ps.map Prod.fst := by
        simp only [List.map_cons, List.mem_cons] at h
        rcases h with h | h
        · exact absurd h.symm hp
        · exact h
      obtain ⟨v, hv⟩ := ih hk
      exact ⟨v, by simp [assocFind, hp, hv]⟩

theorem filter_ne_of_not_mem {β : Type} {k : Nat} {l : List (Nat × β)}
    (h : k ∉ l.map Prod.fst) : l.filter (fun p => p.1 ≠ k) = l := by
  induction l with
  | nil => rfl
  | cons p ps ih =>
    simp only [List.map_cons, List.mem_cons, not_or] at h
    rw [List.filter_cons]
    rw [if_pos (by simp; exact fun he => h.1 he.symm), ih h.2]

theorem filter_ne_length {β : Type} {k : Nat} {l : List (Nat × β)}
    (hnd : (l.map Prod.fst).Nodup) (hk : k ∈ l.map Prod.fst) :
    (l.filter (fun p => p.1 ≠ k)).length + 1 = l.length := by
  induction l with
  | nil => simp at hk
  | cons p ps ih =>
    simp only [List.map_cons, List.nodup_cons] at hnd
    rw [List.filter_cons]
    by_cases hp : p.1 = k
    · rw [if_neg (by simp [hp])]
      rw [filter_ne_of_not_mem (hp ▸ hnd.1)]
      simp
    · have hk2 : k ∈ ps.map Prod.fst := by
        simp only [List.map_cons, List.mem_cons] at hk
        rcases hk with hk | hk
        · exact absurd hk.symm hp
        · exact hk
      rw [if_pos (decide_eq_true hp)]
      simp only [List.length_cons]
      rw [← ih hnd.2 hk2]

theorem edgePairs_length (l : List (Nat × List Nat)) :
    (edgePairs l).length = (l.map (fun p => p.2.length)).sum := by
  induction l with
  | nil => rfl
  | cons p ps ih => simp [edgePairs, ih]

theorem pairs_filter_eq (k : Nat) (v : List Nat) :
    ((v.map (fun x => (k, x))).filter
      (fun e => e.1 = k ∨ e.2 = k)).length = v.length := by
  induction v with
  | nil => rfl
  | cons x xs ih =>
    simp only [List.map_cons, List.filter_cons]
    rw [if_pos (by simp), List.length_cons, List.length_cons, ih]

theorem pairs_filter_ne {k q1 : Nat} (hq : q1 ≠ k) (v : List Nat)
    (hv : v.Nodup) :
    ((v.map (fun x => (q1, x))).filter
      (fun e => e.1 = k ∨ e.2 = k)).length = if k ∈ v then 1 else 0 := by
  induction v with
  | nil => rfl
  | cons x xs ih =>
    simp only [List.nodup_cons] at hv
    simp only [List.map_cons, List.filter_cons]
    by_cases hx : x = k
    · rw [if_pos (by simp [hx])]
      have hnot : k ∉ xs := hx ▸ hv.1
      rw [List.length_cons, ih hv.2]
      simp [hx, hnot]
    · rw [if_neg (by simp [hq, hx])]
      rw [ih hv.2]
      have hiff : (k ∈ x :: xs) ↔ (k ∈ xs) := by
        constructor
        · intro hm
          rcases List.mem_cons.mp hm with hm | hm
          · exact absurd hm.symm hx
          · exact hm
        · exact fun hm => List.mem_cons.mpr (Or.inr hm)
      rw [if_congr hiff rfl rfl]

theorem edgePairs_filter_not_key {k : Nat} {ps : List (Nat × List Nat)}
    (hk : k ∉ ps.map Prod.fst) (hv : ∀ p ∈ ps, p.2.Nodup) :
    ((edgePairs ps).filter (fun e => e.1 = k ∨ e.2 = k)).length
      = removeInCount k ps := by
  induction ps with
  | nil => rfl
  | cons q qs ih =>
    simp only [List.map_cons, List.mem_cons, not_or] at hk
    have hq : q.1 ≠ k := fun he => hk.1 he.symm
    simp only [edgePairs, List.filter_append, List.length_append]
    rw [pairs_filter_ne hq q.2 (hv q (List.mem_cons_self q qs))]
    rw [ih hk.2 (fun p hp => hv p (List.mem_cons_of_mem q hp))]
    simp [removeInCount]

theorem incident_split {k : Nat} {l : List (Nat × List Nat)}
    {v : List Nat} (hnd : (l.map Prod.fst).Nodup)
    (hv : ∀ p ∈ l, p.2.Nodup) (hf : assocFind k l = some v) :
    ((edgePairs l).filter (fun e => e.1 = k ∨ e.2 = k)).length
      = v.length + removeInCount k (l.filter (fun p => p.1 ≠ k)) := by
  induction l with
  | nil => simp [assocFind] at hf
  | cons p ps ih =>
    simp only [List.map_cons, List.nodup_cons] at hnd
    simp only [edgePairs, List.filter_append, List.length_append]
    by_cases hp : p.1 = k
    · have hpv : p.2 = v := by
        rw [assocFind, if_pos hp] at hf
        exact Option.some.inj hf
      have hknot : k ∉ ps.map Prod.fst := hp ▸ hnd.1
      have h1 : ((p.2.map (fun x => (p.1, x))).filter
          (fun e => e.1 = k ∨ e.2 = k)).length = p.2.length := by
        rw [hp]
        exact pairs_filter_eq k p.2
      rw [h1, hpv]
      rw [edgePairs_filter_not_key hknot
        (fun q hq => hv q (List.mem_cons_of_mem p hq))]
      rw [List.filter_cons, if_neg (by simp [hp])]
      rw [filter_ne_of_not_mem hknot]
    · have hf2 : assocFind k ps = some v := by
        rw [assocFind, if_neg hp] at hf
        exact hf
      rw [pairs_filter_ne (fun he => hp he) p.2
        (hv p (List.mem_cons_self p ps))]
      rw [ih hnd.2 (fun q hq => hv q (List.mem_cons_of_mem p hq)) hf2]
      rw [List.filter_cons, if_pos (decide_eq_true hp)]
      simp only [removeInCount, List.map_cons, List.sum_cons]
      by_cases hm : k ∈ p.2
      · simp only [if_pos hm]
        omega
      · simp only [if_neg hm]
        omega

theorem sum_map_eraseIdx {α : Type} (f : α → Nat) (d : α) :
    ∀ (l : List α) (j : Nat), j < l.length →
      ((l.eraseIdx j).map f).sum + f (l.getD j d) = (l.map f).sum := by
  intro l
  induction l with
  | nil =>
    intro j hj
    simp at hj
  | cons x xs ih =>
    intro j hj
    cases j with
    | zero =>
      simp only [List.eraseIdx_cons_zero, List.getD_cons_zero, List.map_cons,
        List.sum_cons]
      omega
    | succ j =>
      have hj2 : j < xs.length := by simpa using hj
      simp only [List.eraseIdx_cons_succ, List.getD_cons_succ, List.map_cons,
        List.sum_cons]
      have hx := ih j hj2
      omega

theorem getD_true_mem : ∀ (r : List Bool) (j : Nat),
    r.getD j false = true → true ∈ r := by
  intro r
  induction r with
  | nil =>
    intro j h
    simp [List.getD] at h
  | cons b bs ih =>
    intro j h
    cases j with
    | zero =>
      rw [List.getD_cons_zero] at h
      rw [h]
      exact List.mem_cons_self _ _
    | succ j =>
      rw [List.getD_cons_succ] at h
      exact List.mem_cons_of_mem b (ih j h)

theorem countTrue_pos {r : List Bool} {j : Nat}
    (h : r.getD j false = true) : 1 ≤ countTrue r := by
  have hm : true ∈ r.filter (fun b => b) :=
    List.mem_filter.mpr ⟨getD_true_mem r j h, rfl⟩
  exact List.length_pos_of_mem hm

theorem colCount_le (j : Nat) (mtx : List (List Bool)) :
    matColCount j mtx ≤ (mtx.map countTrue).sum := by
  unfold matColCount
  apply List.sum_le_sum
  intro r hr
  by_cases hg : r.getD j false = true
  · rw [if_pos hg]
    exact countTrue_pos hg
  · rw [if_neg hg]
    exact Nat.zero_le _

/-- Edges incident to id `i`: directed pairs with `i` as source or target
(a self-loop `(i, i)` is a single pair, counted once). -/
def AdjListGraph.incidentCount (g : AdjListGraph) (i : Nat) : Nat :=
  ((edgePairs g.edges).filter (fun e => e.1 = i ∨ e.2 = i)).length

/-- Reachable-state invariant of `AdjListGraph`: edge keys are distinct,
neighbor sets are duplicate-free, every live id owns an edge entry, and
`edge_count` is the total number of stored edges. -/
def AdjListGraph.WF (g : AdjListGraph) : Prop :=
  (g.edges.map Prod.fst).Nodup ∧
  (∀ p ∈ g.edges, p.2.Nodup) ∧
  (∀ p ∈ g.identifiers.to_index, p.2 ∈ g.edges.map Prod.fst) ∧
  g.edge_count = (g.edges.map (fun p => p.2.length)).sum

/-- Edges incident to id `i` in the matrix: `true` cells of row `i-1`
(out-edges, the self-loop among them) plus `true` cells of column `i-1`
in the other rows (in-edges from other nodes). -/
def IncMatrixGraph.incidentCount (g : IncMatrixGraph) (i : Nat) : Nat :=
  countTrue (g.matrix.getD (i - 1) []) +
  matColCount (i - 1) (g.matrix.eraseIdx (i - 1))

/-- Reachable-state invariant of `IncMatrixGraph`: live ids are positive
and in matrix range, and `edge_count` is the number of `true` cells. -/
def IncMatrixGraph.WF (g : IncMatrixGraph) : Prop :=
  (∀ p ∈ g.identifiers.to_index, 1 ≤ p.2 ∧ p.2 - 1 < g.matrix.length) ∧
  g.edge_count = (g.matrix.map countTrue).sum

def AdjMatrixGraph.incidentCount (g : AdjMatrixGraph) (n : Nat) : Nat :=
  ((edgePairs g.edges).filter (fun e => e.1 = n ∨ e.2 = n)).length

/-- Reachable-state invariant of `AdjMatrixGraph`: no duplicate nodes,
distinct edge keys, duplicate-free neighbor vectors, every node owns an
edge entry, and `edge_count` is the total number of stored edges. -/
def AdjMatrixGraph.WF (g : AdjMatrixGraph) : Prop :=
  g.nodes.Nodup ∧
  (g.edges.map Prod.fst).Nodup ∧
  (∀ p ∈ g.edges, p.2.Nodup) ∧
  (∀ m ∈ g.nodes, m ∈ g.edges.map Prod.fst) ∧
  g.edge_count = (g.edges.map (fun p => p.2.length)).sum

instance (g : AdjListGraph) : Decidable g.WF := by
  unfold AdjListGraph.WF
  exact inferInstance

instance (g : IncMatrixGraph) : Decidable g.WF := by
  unfold IncMatrixGraph.WF
  exact inferInstance

instance (g : AdjMatrixGraph) : Decidable g.WF := by
  unfold AdjMatrixGraph.WF
  exact inferInstance

theorem adjList_remove_counts (g : AdjListGraph) (n : Nat) (hw : g.WF) :
    (g.has_node n = false → g.remove_node n = g) ∧
    (∀ i, g.identifiers.get_by_obj n = some i →
      (g.remove_node n).node_count + 1 = g.node_count ∧
      (g.remove_node n).edge_count + g.incidentCount i = g.edge_count) := by
  constructor
  · intro h
    unfold AdjListGraph.remove_node
    rw [h]
    simp
  · intro i hi
    have hhn : g.has_node n = true := by
      unfold AdjListGraph.has_node DoubleMapping.contains_obj
      rw [hi]
      rfl
    have hmem : (n, i) ∈ g.identifiers.to_index := assocFind_mem hi
    have hkey : i ∈ g.edges.map Prod.fst := hw.2.2.1 (n, i) hmem
    obtain ⟨v, hv⟩ := mem_keys_assocFind hkey
    unfold AdjListGraph.remove_node
    rw [if_pos hhn, hi]
    dsimp only
    rw [hv]
    dsimp only
    constructor
    · unfold AdjListGraph.node_count stripId
      rw [List.length_map]
      exact filter_ne_length hw.1 hkey
    · unfold AdjListGraph.incidentCount
      have hsplit := incident_split hw.1 hw.2.1 hv
      have hle : ((edgePairs g.edges).filter
          (fun e => e.1 = i ∨ e.2 = i)).length ≤ (edgePairs g.edges).length :=
        List.length_filter_le _ _
      have hlen := edgePairs_length g.edges
      have hec := hw.2.2.2
      omega

theorem incMatrix_remove_counts (g : IncMatrixGraph) (n : Nat) (hw : g.WF) :
    (g.has_node n = false → g.remove_node n = g) ∧
    (∀ i, g.identifiers.get_by_obj n = some i →
      (g.remove_node n).node_count + 1 = g.node_count ∧
      (g.remove_node n).edge_count + g.incidentCount i = g.edge_count) := by
  constructor
  · intro h
    have h2 : g.identifiers.get_by_obj n = none := by
      unfold IncMatrixGraph.has_node DoubleMapping.contains_obj at h
      cases hq : g.identifiers.get_by_obj n with
      | none => rfl
      | some x => rw [hq] at h; simp at h
    unfold IncMatrixGraph.remove_node
    rw [h2]
  · intro i hi
    have hmem : (n, i) ∈ g.identifiers.to_index := assocFind_mem hi
    have hbound := hw.1 (n, i) hmem
    unfold IncMatrixGraph.remove_node
    rw [hi]
    dsimp only
    constructor
    · unfold IncMatrixGraph.node_count
      rw [List.length_map]
      have hb2 : 1 ≤ i ∧ i - 1 < g.matrix.length := hbound
      have hl := List.length_eraseIdx_add_one hb2.2
      omega
    · unfold IncMatrixGraph.incidentCount
      have hD := sum_map_eraseIdx countTrue [] g.matrix (i - 1) hbound.2
      have hE := colCount_le (i - 1) (g.matrix.eraseIdx (i - 1))
      have hec := hw.2
      omega

theorem adjMatrix_remove_counts (g : AdjMatrixGraph) (n : Nat) (hw : g.WF) :
    (g.has_node n = false → g.remove_node n = g) ∧
    (g.has_node n = true →
      (g.remove_node n).node_count + 1 = g.node_count ∧
      (g.remove_node n).edge_count + g.incidentCount n = g.edge_count) := by
  constructor
  · intro h
    unfold AdjMatrixGraph.remove_node
    rw [h]
    simp
  · intro h
    have hmn : n ∈ g.nodes := by
      unfold AdjMatrixGraph.has_node at h
      exact of_decide_eq_true h
    have hkey : n ∈ g.edges.map Prod.fst := hw.2.2.2.1 n hmn
    obtain ⟨v, hv⟩ := mem_keys_assocFind hkey
    unfold AdjMatrixGraph.remove_node
    rw [if_pos h, hv]
    dsimp only
    constructor
    · show (g.nodes.erase n).length + 1 = g.nodes.length
      have hlen := List.length_erase_of_mem hmn
      have hpos := List.length_pos_of_mem hmn
      omega
    · unfold AdjMatrixGraph.incidentCount
      have hsplit := incident_split hw.2.1 hw.2.2.1 hv
      have hle : ((edgePairs g.edges).filter
          (fun e => e.1 = n ∨ e.2 = n)).length ≤ (edgePairs g.edges).length :=
        List.length_filter_le _ _
      have hlen := edgePairs_length g.edges
      have hec := hw.2.2.2.2
      omega

/-- C8: for each backend, `remove_node(n)` is a no-op on an unregistered
node, and on a registered node (in a well-formed state) it decreases
`node_count` by exactly 1 and `edge_count` by exactly the number of edges
with `n` as source or target, a self-loop on `n` counted once (stated
additively, which also shows the subtraction never underflows). -/
theorem remove_node_counts :
    (∀ (g : AdjListGraph) (n : Nat), g.WF →
      (g.has_node n = false → g.remove_node n = g) ∧
      (∀ i, g.identifiers.get_by_obj n = some i →
        (g.remove_node n).node_count + 1 = g.node_count ∧
        (g.remove_node n).edge_count + g.incidentCount i = g.edge_count)) ∧
    (∀ (g : IncMatrixGraph) (n : Nat), g.WF →
      (g.has_node n = false → g.remove_node n = g) ∧
      (∀ i, g.identifiers.get_by_obj n = some i →
        (g.remove_node n).node_count + 1 = g.node_count ∧
        (g.remove_node n).edge_count + g.incidentCount i = g.edge_count)) ∧
    (∀ (g : AdjMatrixGraph) (n : Nat), g.WF →
      (g.has_node n = false → g.remove_node n = g) ∧
      (g.has_node n = true →
        (g.remove_node n).node_count + 1 = g.node_count ∧
        (g.remove_node n).edge_count + g.incidentCount n = g.edge_count)) :=
  ⟨fun g n hw => adjList_remove_counts g n hw,
   fun g n hw => incMatrix_remove_counts g n hw,
   fun g n hw => adjMatrix_remove_counts g n hw⟩

def gW1 : AdjListGraph := AdjListGraph.new.add_edge 1 2

def gW2 : IncMatrixGraph :=
  IncMatrixGraph.mk (DoubleMapping.mk [(2, 2), (1, 1)] [some 1, some 2] true)
    1 [[false, true], [false, false]]

def gW3 : AdjMatrixGraph := AdjMatrixGraph.new.add_edge 1 2

theorem remove_node_counts_witness :
    ((gW1.remove_node 1).node_count + 1 = gW1.node_count ∧
      (gW1.remove_node 1).edge_count + gW1.incidentCount 1 = gW1.edge_count) ∧
    gW1.remove_node 7 = gW1 ∧
    ((gW2.remove_node 1).node_count + 1 = gW2.node_count ∧
      (gW2.remove_node 1).edge_count + gW2.incidentCount 1 = gW2.edge_count) ∧
    ((gW3.remove_node 1).node_count + 1 = gW3.node_count ∧
      (gW3.remove_node 1).edge_count + gW3.incidentCount 1 = gW3.edge_count) :=
  ⟨(remove_node_counts.1 gW1 1 (by decide)).2 1 (by decide),
   (remove_node_counts.1 gW1 7 (by decide)).1 (by decide),
   (remove_node_counts.2.1 gW2 1 (by decide)).2 1 (by decide),
   (remove_node_counts.2.2 gW3 1 (by decide)).2 (by decide)⟩
